import Mathlib

/-!
# random-string-generator: pattern compiler and string generator

A shallow embedding of `generator.go`.

* Runes are code points (`Nat`).  A pattern is a `List Char`: `[]rune(s)` of a
  Go string yields Unicode scalar values only, which is what `Char` is.
  Range expansion inside a class counts through every code point, so the
  character list of a class is a `List Nat` (it may hold surrogates).
* Go `int` is taken to be 64 bits wide; every arithmetic result goes through
  `wrapInt`.
* `rand.Intn` is driven by a stream of draws `Nat → Nat`; the generation state
  carries the position in the stream.  `rand.Intn n` panics when `n ≤ 0`.
* A generated Go string is modelled by the list of its characters.
* `log.Fatalf` ends the run: it is an error result of `compile`.  A run-time
  panic of the compile loop is the error `IndexOutOfRange`.
-/

namespace Generator

/-! ## Constants -/

/-- All possible characters which could match `.` or an inverted class. -/
def possibleCharacters : String :=
  "ABCDEFGHIJKLMNOPQRSTUVWXYZabcdefghijklmnopqrstuvwxyz1234567890\x27,./|?><\x60~!#$%^&*()-_=+\x7b\x7d[]:;\"\\"

/-- Max number of repetitions for the quantifiers `*` and `+`. -/
def maxCharactersInStarOrPlus : Int := 10

/-! ## Machine integers and runes -/

/-- Two's-complement wrap-around of a 64-bit Go `int`. -/
def wrapInt (x : Int) : Int := (x + 2 ^ 63) % 2 ^ 64 - 2 ^ 63

/-- Go's `sort.Slice` with the comparison `<` on runes: the ascending arrangement. -/
def sortRunes (l : List Nat) : List Nat := l.insertionSort (fun a b => a ≤ b)

/-- The alphabet as runes, sorted ascending (lines 170-173). -/
def possibleCharactersRunes : List Nat :=
  sortRunes (possibleCharacters.toList.map Char.toNat)

/-- Go's `string(rune)`: the rune itself, or U+FFFD when it is not a Unicode
scalar value (a surrogate, or above U+10FFFF). -/
def runeString (r : Nat) : Char :=
  if r.isValidChar then Char.ofNat r else Char.ofNat 0xFFFD

/-- The call `strconv.Atoi(string(c))` for one rune: a value exactly for the
ASCII digits. -/
def atoiRune (c : Char) : Option Int :=
  if 48 ≤ c.toNat ∧ c.toNat ≤ 57 then some ((c.toNat : Int) - 48) else none

/-! ## The tree -/

/-- All possible parts of a regexp.  Each carries `minNumber` and `maxNumber`
(the embedded `minMaxNumbers`). -/
inductive RegExp where
  /-- List of parts, with the flag `isItAPartOfAlternative`. -/
  | regExpList (minNumber maxNumber : Int) (list : List RegExp)
      (isItAPartOfAlternative : Bool)
  /-- A part with alternative branches. -/
  | regExpAlternative (minNumber maxNumber : Int) (list : List RegExp)
  /-- Characters class. -/
  | regExpClass (minNumber maxNumber : Int) (characters : List Nat)
  /-- Back reference to the subpattern `index`. -/
  | regExpBackReference (minNumber maxNumber : Int) (index : Int)

/-- Setter for min and max numbers. -/
def RegExp.setMinMaxNumber (min max : Int) : RegExp → RegExp
  | .regExpList _ _ l a => .regExpList min max l a
  | .regExpAlternative _ _ l => .regExpAlternative min max l
  | .regExpClass _ _ cs => .regExpClass min max cs
  | .regExpBackReference _ _ i => .regExpBackReference min max i

/-! ## Generation -/

/-- The run-time panics generation can raise. -/
inductive Fault where
  /-- Index out of range on a slice. -/
  | indexOutOfRange
  /-- The call `rand.Intn n` with `n ≤ 0`. -/
  | invalidIntnArgument
  deriving DecidableEq, Repr

/-- The globals `currentIndex` and `subpatterns`, and the position in the
stream of random draws. -/
structure GenState where
  currentIndex : Int
  subpatterns : Int → Option (List Char)
  pos : Nat

/-- The state `main` sets before each `rel.generate()` (lines 378-379). -/
def GenState.init : GenState :=
  { currentIndex := 0, subpatterns := fun _ => none, pos := 0 }

/-- Sequencing of two steps that may end the run: the second step runs on
the result of the first, unless the first has ended the run. -/
def andThen {ε α β : Type} (x : Except ε α) (f : α → Except ε β) : Except ε β :=
  match x with
  | .error e => .error e
  | .ok a => f a

/-- The state after `n` draws have been taken from the stream. -/
def GenState.drawnBy (s : GenState) (n : Nat) : GenState := { s with pos := s.pos + n }

/-- The call `rand.Intn(n)`: the next draw reduced into `[0, n)`. -/
def intn (draws : Nat → Nat) (n : Int) (s : GenState) : Except Fault (Int × GenState) :=
  if n ≤ 0 then .error .invalidIntnArgument
  else .ok (((draws s.pos % n.toNat : Nat) : Int), s.drawnBy 1)

/-- The expression `*minNumber + rand.Intn(*maxNumber-*minNumber+1)`. -/
def drawSize (draws : Nat → Nat) (min max : Int) (s : GenState) :
    Except Fault (Int × GenState) :=
  andThen (intn draws (wrapInt (wrapInt (max - min) + 1)) s) fun r =>
    .ok (wrapInt (min + r.1), r.2)

/-- The loop `for i := 0; i < size; i++ { result += body }`, `n` iterations. -/
def repeatGen (n : Nat) (body : GenState → Except Fault (List Char × GenState))
    (result : List Char) (s : GenState) : Except Fault (List Char × GenState) :=
  match n with
  | 0 => .ok (result, s)
  | k + 1 => andThen (body s) fun r => repeatGen k body (result ++ r.1) r.2

/-- The slice access `characters[k]`, with its bounds check. -/
def indexRune (characters : List Nat) (k : Nat) : Except Fault Nat :=
  match characters.get? k with
  | none => .error .indexOutOfRange
  | some r => .ok r

/-- One iteration of the loop of `regExpClass.generate` (line 119). -/
def pickCharacter (draws : Nat → Nat) (characters : List Nat) (s : GenState) :
    Except Fault (List Char × GenState) :=
  andThen (intn draws (characters.length : Int) s) fun r =>
    andThen (indexRune characters r.1.toNat) fun c => .ok ([runeString c], r.2)

/-- The statement `subpatterns[index] = result`. -/
def GenState.store (s : GenState) (index : Int) (result : List Char) : GenState :=
  { s with subpatterns := fun k => if k = index then some result else s.subpatterns k }

/-- The statements `index = currentIndex; currentIndex += 1`: the new state. -/
def GenState.claim (s : GenState) : GenState :=
  { s with currentIndex := wrapInt (s.currentIndex + 1) }

mutual
/-- The method `generate` of the four kinds of parts. -/
def generate (draws : Nat → Nat) : RegExp → GenState → Except Fault (List Char × GenState)
  | .regExpList min max list isItAPartOfAlternative, s =>
    andThen (drawSize draws min max (if isItAPartOfAlternative then s else s.claim)) fun r =>
      andThen (repeatGen r.1.toNat (fun t => generateAll draws list t) [] r.2) fun q =>
        if isItAPartOfAlternative then .ok q
        else .ok (q.1, q.2.store s.currentIndex q.1)
  | .regExpAlternative min max list, s =>
    andThen (drawSize draws min max s.claim) fun r =>
      andThen (repeatGen r.1.toNat
          (fun t => andThen (intn draws (list.length : Int) t) fun k =>
            generateNth draws list k.1.toNat k.2) [] r.2) fun q =>
        .ok (q.1, q.2.store s.currentIndex q.1)
  | .regExpClass min max characters, s =>
    andThen (drawSize draws min max s) fun r =>
      repeatGen r.1.toNat (pickCharacter draws characters) [] r.2
  | .regExpBackReference min max index, s =>
    match s.subpatterns index with
    | some str =>
      andThen (drawSize draws min max s) fun r =>
        repeatGen r.1.toNat (fun t => .ok (str, t)) [] r.2
    | none => .ok ([], s)
/-- The loop `for _, re := range rel.list { result += re.generate() }`. -/
def generateAll (draws : Nat → Nat) : List RegExp → GenState →
    Except Fault (List Char × GenState)
  | [], s => .ok ([], s)
  | re :: rest, s =>
    andThen (generate draws re s) fun r =>
      andThen (generateAll draws rest r.2) fun q => .ok (r.1 ++ q.1, q.2)
/-- The call `rea.list[k].generate()`, with the bounds check of the index. -/
def generateNth (draws : Nat → Nat) : List RegExp → Nat → GenState →
    Except Fault (List Char × GenState)
  | [], _, _ => .error .indexOutOfRange
  | re :: _, 0, s => generate draws re s
  | _ :: rest, k + 1, s => generateNth draws rest k s
end

/-- One run of the loop body of lines 377-381: fresh `currentIndex` and
`subpatterns`, then `rel.generate()`; the printed string. -/
def generateString (draws : Nat → Nat) (root : RegExp) : Except Fault (List Char) :=
  andThen (generate draws root GenState.init) fun r => .ok r.1

/-! ## Compilation -/

/-- The ways the compile loop of `main` ends without a tree: the six
`log.Fatalf` sites, and the run-time panic of an index out of range. -/
inductive CompileError where
  /-- The message "Found ')' without '('". -/
  | UnmatchedCloseGroup
  /-- The message "missing ')' character". -/
  | UnmatchedOpenGroup
  /-- The message "missing ']' character". -/
  | UnterminatedClass
  /-- The message "empty sequence between [ and ]". -/
  | EmptyClass
  /-- The messages "extra comma" and "a digit was expected". -/
  | QuantifierSyntaxError
  /-- The message "min quantifier bigger than max". -/
  | QuantifierRangeError
  /-- A run-time panic: index out of range. -/
  | IndexOutOfRange
  deriving DecidableEq, Repr

/-- The `regExpList` under construction (`rel`, and the entries of the stack).
Its own bound stays at the default (1,1) until it is appended to a list.
`parentAlternative` is `none` for the nil pointer, and otherwise holds the
branch list of the pointed-to `regExpAlternative`, whose bound is the default
until it is appended; `isItAPartOfAlternative` is true exactly when the pointer
is set (lines 176-178, 188-191, 212-222, 366-369).  Only one live
`regExpList` points to an alternative under construction, so the pointee is
kept by value. -/
structure Rel where
  list : List RegExp
  parentAlternative : Option (List RegExp)

/-- The flag `isItAPartOfAlternative` of a list under construction. -/
def Rel.isItAPartOfAlternative (rel : Rel) : Bool := rel.parentAlternative.isSome

/-- A new `regExpList` with `newMinMaxNumbers()`, not part of an alternative. -/
def Rel.new : Rel := { list := [], parentAlternative := none }

/-- The value of a list under construction as a part of the tree. -/
def Rel.freeze (rel : Rel) : RegExp :=
  .regExpList 1 1 rel.list rel.isItAPartOfAlternative

/-- The statement `rel.list[len(rel.list)-1].setMinMaxNumber(min, max)`. -/
def setLastMinMax (min max : Int) (list : List RegExp) : Except CompileError (List RegExp) :=
  match list.getLast? with
  | none => .error .IndexOutOfRange
  | some re => .ok (list.dropLast ++ [re.setMinMaxNumber min max])

/-- The runes `lo, lo+1, ..., hi` of the loop of lines 241-243. -/
def rangeRunes (lo hi : Nat) : List Nat := List.range' lo (hi + 1 - lo)

/-- The test `i+2 < len(r) && r[i+1] == '-' && r[i+2] != ']'` of line 240 on the
runes after `r[i]`: the rune `r[i+2]` that ends the range, when it holds. -/
def rangeEnd : List Char → Option Char
  | m :: d :: _ => if m = '-' ∧ d ≠ ']' then some d else none
  | _ => none

/-- The loop of lines 238-248 over the text after `[` or `[^`: the characters
collected, the number of runes passed, and whether it stopped at a `]`.
`skip` is the number of runes the step `i += 2` of a range has still to pass. -/
def classBody : List Char → Nat → List Nat → Nat → List Nat × Nat × Bool
  | [], _, chars, n => (chars, n, false)
  | _ :: tl, skip + 1, chars, n => classBody tl skip chars n
  | c :: tl, 0, chars, n =>
    if c = ']' then (chars, n, true)
    else
      match rangeEnd tl with
      | some d => classBody tl 2 (chars ++ rangeRunes c.toNat d.toNat) (n + 3)
      | none => classBody tl 0 (chars ++ [c.toNat]) (n + 1)

/-- The loop of lines 262-268: `alphabet` from position `j` on, `chars` from
position `k` on. -/
def invertChars : List Nat → List Nat → List Nat
  | [], _ => []
  | a :: alphabet, [] => a :: invertChars alphabet []
  | a :: alphabet, c :: chars =>
    if a ≥ c then invertChars alphabet chars
    else a :: invertChars alphabet (c :: chars)

/-- The loop of lines 285-298 over the text after `{`: `minmax[0]`,
`minmax[1]`, `index`, and the number of runes passed before `}` or the end. -/
def quantifierBody : List Char → Int → Int → Nat → Nat →
    Except CompileError (Int × Int × Nat × Nat)
  | [], m0, m1, index, n => .ok (m0, m1, index, n)
  | c :: tl, m0, m1, index, n =>
    if c = '}' then .ok (m0, m1, index, n)
    else if c = ',' then
      if index + 1 > 1 then .error .QuantifierSyntaxError
      else quantifierBody tl m0 m1 (index + 1) (n + 1)
    else
      match atoiRune c with
      | none => .error .QuantifierSyntaxError
      | some digit =>
        if index = 0 then quantifierBody tl (wrapInt (wrapInt (10 * m0) + digit)) m1 index (n + 1)
        else quantifierBody tl m0 (wrapInt (wrapInt (10 * m1) + digit)) index (n + 1)

/-- Lines 300-307: the bound a quantifier `{...}` sets. -/
def quantifierBound (m0 m1 : Int) (index : Nat) : Except CompileError (Int × Int) :=
  let m1 := if index = 0 then m0
    else if m1 = 0 then wrapInt (m0 + maxCharactersInStarOrPlus) else m1
  if m0 > m1 then .error .QuantifierRangeError else .ok (m0, m1)

/-- One pass through the `switch` of `main` (lines 184-360) at the rune `c`,
with `rest` the runes after it: the number of further runes the pass moves
`i` over, and the new `rel` and stack (top at the head). -/
def compileStep (c : Char) (rest : List Char) (rel : Rel) (stack : List Rel) :
    Except CompileError (Nat × Rel × List Rel) :=
  if c = '(' then .ok (0, Rel.new, rel :: stack)
  else if c = ')' then
    match stack with
    | [] => .error .UnmatchedCloseGroup
    | top :: stack1 =>
      match rel.parentAlternative with
      | some branches =>
        .ok (0, { top with list := top.list ++
          [.regExpAlternative 1 1 (branches ++ [rel.freeze])] }, stack1)
      | none => .ok (0, { top with list := top.list ++ [rel.freeze] }, stack1)
  else if c = '|' then
    let branches := match rel.parentAlternative with
      | some branches => branches
      | none => []
    let rel1 : Rel := { rel with parentAlternative := some branches }
    .ok (0, { list := [], parentAlternative := some (branches ++ [rel1.freeze]) }, stack)
  else if c = '[' then
    match rest with
    | [] => .error .UnterminatedClass
    | c1 :: rest1 =>
      let needInvert := decide (c1 = '^')
      let body := if needInvert then rest1 else rest
      match classBody body 0 [] 0 with
      | (_, _, false) => .error .UnterminatedClass
      | (chars, n, true) =>
        if chars.length = 0 then .error .EmptyClass
        else
          let characters :=
            if needInvert then invertChars possibleCharactersRunes (sortRunes chars)
            else chars
          .ok ((if needInvert then 1 else 0) + n + 1,
            { rel with list := rel.list ++ [.regExpClass 1 1 characters] }, stack)
  else if c = '{' then
    match quantifierBody rest 0 0 0 0 with
    | .error e => .error e
    | .ok (m0, m1, index, n) =>
      match quantifierBound m0 m1 index with
      | .error e => .error e
      | .ok (min, max) =>
        match setLastMinMax min max rel.list with
        | .error e => .error e
        | .ok list => .ok (n + 1, { rel with list := list }, stack)
  else if c = '?' then
    match setLastMinMax 0 1 rel.list with
    | .error e => .error e
    | .ok list => .ok (0, { rel with list := list }, stack)
  else if c = '*' then
    match setLastMinMax 0 maxCharactersInStarOrPlus rel.list with
    | .error e => .error e
    | .ok list => .ok (0, { rel with list := list }, stack)
  else if c = '+' then
    match setLastMinMax 1 maxCharactersInStarOrPlus rel.list with
    | .error e => .error e
    | .ok list => .ok (0, { rel with list := list }, stack)
  else if c = '.' then
    .ok (0, { rel with list := rel.list ++ [.regExpClass 1 1 possibleCharactersRunes] }, stack)
  else if c = '\\' then
    match rest with
    | [] => .error .IndexOutOfRange
    | c1 :: _ =>
      match atoiRune c1 with
      | some digit =>
        .ok (1, { rel with list := rel.list ++ [.regExpBackReference 1 1 digit] }, stack)
      | none => .ok (1, { rel with list := rel.list ++ [.regExpClass 1 1 [c1.toNat]] }, stack)
  else .ok (0, { rel with list := rel.list ++ [.regExpClass 1 1 [c.toNat]] }, stack)

/-- The scan `for i := 0; i < len(r); i++` of `main` over the runes from
position `i` on.  `skip` is the number of runes the last pass has already
moved over (the advance of `i` inside the loop body). -/
def compileLoop : List Char → Nat → Rel → List Rel → Except CompileError (Rel × List Rel)
  | [], _, rel, stack => .ok (rel, stack)
  | _ :: rest, skip + 1, rel, stack => compileLoop rest skip rel stack
  | c :: rest, 0, rel, stack =>
    match compileStep c rest rel stack with
    | .error e => .error e
    | .ok (skip, rel1, stack1) => compileLoop rest skip rel1 stack1

/-- Lines 363-375, after the scan: a pending alternative is folded into a new
top-level list, then a non-empty stack is an error. -/
def finish (rel : Rel) (stack : List Rel) : Except CompileError RegExp :=
  let rel1 : Rel :=
    match rel.parentAlternative with
    | some branches =>
      { list := [.regExpAlternative 1 1 (branches ++ [rel.freeze])], parentAlternative := none }
    | none => rel
  if stack.length > 0 then .error .UnmatchedOpenGroup else .ok rel1.freeze

/-- The compiling part of `main` (lines 168-375): the tree `rel` that the
generation loop uses, or the way the run ends before it. -/
def compile (r : List Char) : Except CompileError RegExp :=
  match compileLoop r 0 Rel.new [] with
  | .error e => .error e
  | .ok (rel, stack) => finish rel stack

/-- Ordinary characters: those the `switch` of `main` sends to `default`. -/
def isOrdinary (c : Char) : Bool :=
  !(c = '(' || c = ')' || c = '|' || c = '[' || c = '{' || c = '?' || c = '*' ||
    c = '+' || c = '.' || c = '\\')

/-- The part an ordinary character `c` compiles to: a class of the one rune `c`
with the default bound. -/
def literal (c : Char) : RegExp := .regExpClass 1 1 [c.toNat]

/-- The nesting depth after the text `w`, starting at depth `d`: `none` once a
`)` is met at depth 0. -/
def parenDepth : List Char → Nat → Option Nat
  | [], d => some d
  | c :: rest, d =>
    if c = '(' then parenDepth rest (d + 1)
    else if c = ')' then
      match d with
      | 0 => none
      | k + 1 => parenDepth rest k
    else parenDepth rest d

/-- The characters a class body lists, singly or through a range: what the loop
of lines 238-248 collects over the whole of `body` (`skip` as in `classBody`). -/
def explicitCharacters : List Char → Nat → List Nat
  | [], _ => []
  | _ :: tl, skip + 1 => explicitCharacters tl skip
  | c :: tl, 0 =>
    match rangeEnd tl with
    | some d => rangeRunes c.toNat d.toNat ++ explicitCharacters tl 2
    | none => c.toNat :: explicitCharacters tl 0

/-- An item of a class body: a single character, or a range `x-y`. -/
inductive ClassItem where
  /-- The single character `c`. -/
  | single (c : Char)
  /-- The range `x-y`. -/
  | range (x y : Char)

/-- The text of an item in the pattern. -/
def ClassItem.text : ClassItem → List Char
  | .single c => [c]
  | .range x y => [x, '-', y]

/-- The code points an item stands for: the character, or every code point
from `x` to `y` inclusive. -/
def ClassItem.runes : ClassItem → List Nat
  | .single c => [c.toNat]
  | .range x y => List.Ico x.toNat (y.toNat + 1)

/-- An item whose characters are other than `]` and `-`, a range being
ascending. -/
def ClassItem.wellFormed : ClassItem → Prop
  | .single c => c ≠ ']' ∧ c ≠ '-'
  | .range x y => x ≠ ']' ∧ x ≠ '-' ∧ y ≠ ']' ∧ y ≠ '-' ∧ x ≤ y

/-- The number `n` written out in decimal. -/
def decimal (n : Nat) : List Char := Nat.toDigits 10 n

/-- The value the loop of lines 285-298 accumulates from `acc` over the
decimal digits `ds`, when no step overflows. -/
def digitsValue (acc : Int) (ds : List Nat) : Int :=
  List.foldl (fun (a : Int) (d : Nat) => 10 * a + (d : Int)) acc ds

mutual
/-- Every node of the tree satisfies `p`. -/
def RegExp.every (p : RegExp → Bool) : RegExp → Bool
  | .regExpList min max list a => p (.regExpList min max list a) && everyAll p list
  | .regExpAlternative min max list => p (.regExpAlternative min max list) && everyAll p list
  | .regExpClass min max cs => p (.regExpClass min max cs)
  | .regExpBackReference min max i => p (.regExpBackReference min max i)
/-- Every node of every tree of the list satisfies `p`. -/
def everyAll (p : RegExp → Bool) : List RegExp → Bool
  | [] => true
  | re :: rest => re.every p && everyAll p rest
end

/-- The repetition bound of a node has `minNumber ≤ maxNumber`. -/
def boundOk : RegExp → Bool
  | .regExpList min max _ _ => decide (min ≤ max)
  | .regExpAlternative min max _ => decide (min ≤ max)
  | .regExpClass min max _ => decide (min ≤ max)
  | .regExpBackReference min max _ => decide (min ≤ max)

/-- The node is a list marked as a branch of an alternative. -/
def isBranch : RegExp → Bool
  | .regExpList _ _ _ a => a
  | _ => false

/-- An alternative has at least two branches, each a list marked as a branch;
the other kinds of node are not constrained. -/
def alternativeOk : RegExp → Bool
  | .regExpAlternative _ _ list => decide (2 ≤ list.length) && list.all isBranch
  | _ => true

/-- The two node invariants together. -/
def nodeOk (re : RegExp) : Bool := boundOk re && alternativeOk re

/-- The invariant of a list under construction: its parts are sound, and so
are the branches gathered so far by the alternative it belongs to, of which
there is at least one. -/
def Rel.sound (rel : Rel) : Prop :=
  everyAll nodeOk rel.list = true ∧
    ∀ branches, rel.parentAlternative = some branches →
      branches ≠ [] ∧ everyAll nodeOk branches = true ∧ branches.all isBranch = true

/-! ## Basic facts -/

theorem wrapInt_eq_self {x : Int} (h1 : -(2 ^ 63) ≤ x) (h2 : x < 2 ^ 63) : wrapInt x = x := by
  unfold wrapInt
  rw [Int.emod_eq_of_lt (by omega) (by omega)]
  omega

theorem runeString_toNat (c : Char) : runeString c.toNat = c := by
  unfold runeString
  have h : c.toNat.isValidChar := c.valid
  simp [h, Char.ofNat_toNat]

theorem compileLoop_ordinary (c : Char) (rest : List Char) (rel : Rel) (stack : List Rel)
    (h : isOrdinary c = true) :
    compileLoop (c :: rest) 0 rel stack =
      compileLoop rest 0 { rel with list := rel.list ++ [literal c] } stack := by
  simp only [isOrdinary, Bool.not_eq_true', Bool.or_eq_false_iff, decide_eq_false_iff_not] at h
  obtain ⟨⟨⟨⟨⟨⟨⟨⟨⟨h1, h2⟩, h3⟩, h4⟩, h5⟩, h6⟩, h7⟩, h8⟩, h9⟩, h10⟩ := h
  simp only [compileLoop, compileStep, h1, h2, h3, h4, h5, h6, h7, h8, h9, h10, if_false,
    literal]

theorem compileLoop_skip (pre rest : List Char) (rel : Rel) (stack : List Rel) :
    compileLoop (pre ++ rest) pre.length rel stack = compileLoop rest 0 rel stack := by
  induction pre with
  | nil => rfl
  | cons c pre ih => simpa [compileLoop] using ih

/-! ## Unfolding of the generation methods -/

theorem andThen_ok {ε α β : Type} (a : α) (f : α → Except ε β) :
    andThen (.ok a) f = f a := id rfl

theorem andThen_error {ε α β : Type} (e : ε) (f : α → Except ε β) :
    andThen (.error e : Except ε α) f = .error e := id rfl

theorem generate_regExpList_outer (draws : Nat → Nat) (min max : Int) (list : List RegExp)
    (s : GenState) :
    generate draws (.regExpList min max list false) s =
      andThen (drawSize draws min max s.claim) fun r =>
        andThen (repeatGen r.1.toNat (generateAll draws list) [] r.2) fun q =>
          .ok (q.1, q.2.store s.currentIndex q.1) := id rfl

theorem generate_regExpList_branch (draws : Nat → Nat) (min max : Int) (list : List RegExp)
    (s : GenState) :
    generate draws (.regExpList min max list true) s =
      andThen (drawSize draws min max s) fun r =>
        andThen (repeatGen r.1.toNat (generateAll draws list) [] r.2) fun q => .ok q := id rfl

theorem generate_regExpAlternative (draws : Nat → Nat) (min max : Int) (list : List RegExp)
    (s : GenState) :
    generate draws (.regExpAlternative min max list) s =
      andThen (drawSize draws min max s.claim) fun r =>
        andThen (repeatGen r.1.toNat
            (fun t => andThen (intn draws (list.length : Int) t) fun k =>
              generateNth draws list k.1.toNat k.2) [] r.2) fun q =>
          .ok (q.1, q.2.store s.currentIndex q.1) := id rfl

theorem generate_regExpClass (draws : Nat → Nat) (min max : Int) (characters : List Nat)
    (s : GenState) :
    generate draws (.regExpClass min max characters) s =
      andThen (drawSize draws min max s) fun r =>
        repeatGen r.1.toNat (pickCharacter draws characters) [] r.2 := id rfl

theorem generate_regExpBackReference_found (draws : Nat → Nat) (min max index : Int)
    (s : GenState) (str : List Char) (h : s.subpatterns index = some str) :
    generate draws (.regExpBackReference min max index) s =
      andThen (drawSize draws min max s) fun r =>
        repeatGen r.1.toNat (fun t => .ok (str, t)) [] r.2 := by
  have e : generate draws (.regExpBackReference min max index) s =
      match s.subpatterns index with
      | some str =>
        andThen (drawSize draws min max s) fun r =>
          repeatGen r.1.toNat (fun t => .ok (str, t)) [] r.2
      | none => .ok ([], s) := id rfl
  rw [e, h]

theorem generate_regExpBackReference_absent (draws : Nat → Nat) (min max index : Int)
    (s : GenState) (h : s.subpatterns index = none) :
    generate draws (.regExpBackReference min max index) s = .ok ([], s) := by
  have e : generate draws (.regExpBackReference min max index) s =
      match s.subpatterns index with
      | some str =>
        andThen (drawSize draws min max s) fun r =>
          repeatGen r.1.toNat (fun t => .ok (str, t)) [] r.2
      | none => .ok ([], s) := id rfl
  rw [e, h]

theorem generateAll_nil (draws : Nat → Nat) (s : GenState) :
    generateAll draws [] s = .ok ([], s) := id rfl

theorem generateAll_cons (draws : Nat → Nat) (re : RegExp) (rest : List RegExp) (s : GenState) :
    generateAll draws (re :: rest) s =
      andThen (generate draws re s) fun r =>
        andThen (generateAll draws rest r.2) fun q => .ok (r.1 ++ q.1, q.2) := id rfl

theorem generateNth_nil (draws : Nat → Nat) (k : Nat) (s : GenState) :
    generateNth draws [] k s = .error .indexOutOfRange := id rfl

theorem generateNth_zero (draws : Nat → Nat) (re : RegExp) (rest : List RegExp) (s : GenState) :
    generateNth draws (re :: rest) 0 s = generate draws re s := id rfl

theorem generateNth_succ (draws : Nat → Nat) (re : RegExp) (rest : List RegExp) (k : Nat)
    (s : GenState) :
    generateNth draws (re :: rest) (k + 1) s = generateNth draws rest k s := id rfl

theorem repeatGen_zero (body : GenState → Except Fault (List Char × GenState))
    (result : List Char) (s : GenState) : repeatGen 0 body result s = .ok (result, s) := id rfl

theorem repeatGen_succ (k : Nat) (body : GenState → Except Fault (List Char × GenState))
    (result : List Char) (s : GenState) :
    repeatGen (k + 1) body result s =
      andThen (body s) fun r => repeatGen k body (result ++ r.1) r.2 := id rfl

theorem generateString_eq (draws : Nat → Nat) (root : RegExp) :
    generateString draws root =
      andThen (generate draws root GenState.init) fun r => .ok r.1 := id rfl

attribute [irreducible] generate generateAll generateNth repeatGen andThen generateString

/-! ## Literal patterns -/

theorem compileLoop_literals (w rest : List Char) (rel : Rel) (stack : List Rel)
    (h : ∀ c ∈ w, isOrdinary c = true) :
    compileLoop (w ++ rest) 0 rel stack =
      compileLoop rest 0 { rel with list := rel.list ++ w.map literal } stack := by
  induction w generalizing rel with
  | nil => simp
  | cons c w ih =>
    rw [List.cons_append, compileLoop_ordinary c _ _ _ (h c (List.mem_cons_self _ _)),
      ih _ (fun x hx => h x (List.mem_cons_of_mem _ hx))]
    simp

theorem wrapInt_zero : wrapInt 0 = 0 := by decide

theorem wrapInt_one : wrapInt 1 = 1 := by decide

theorem wrapInt_two : wrapInt 2 = 2 := by decide

theorem drawnBy_drawnBy (s : GenState) (a b : Nat) :
    (s.drawnBy a).drawnBy b = s.drawnBy (a + b) := by
  simp [GenState.drawnBy, Nat.add_assoc]

theorem drawnBy_currentIndex (s : GenState) (n : Nat) :
    (s.drawnBy n).currentIndex = s.currentIndex := id rfl

theorem drawnBy_subpatterns (s : GenState) (n : Nat) :
    (s.drawnBy n).subpatterns = s.subpatterns := id rfl

theorem drawnBy_pos (s : GenState) (n : Nat) : (s.drawnBy n).pos = s.pos + n := id rfl

theorem intn_pos (draws : Nat → Nat) (n : Int) (s : GenState) (h : 0 < n) :
    intn draws n s = .ok (((draws s.pos % n.toNat : Nat) : Int), s.drawnBy 1) := by
  rw [intn, if_neg (not_le.mpr h)]

theorem intn_nonpos (draws : Nat → Nat) (n : Int) (s : GenState) (h : n ≤ 0) :
    intn draws n s = .error .invalidIntnArgument := by
  rw [intn, if_pos h]

theorem intn_one (draws : Nat → Nat) (s : GenState) :
    intn draws 1 s = .ok (0, s.drawnBy 1) := by
  rw [intn_pos draws 1 s (by decide)]
  have h : ((draws s.pos % (1 : Int).toNat : Nat) : Int) = 0 := by
    rw [Int.toNat_one, Nat.mod_one]; rfl
  rw [h]

theorem drawSize_one (draws : Nat → Nat) (s : GenState) :
    drawSize draws 1 1 s = .ok (1, s.drawnBy 1) := by
  have h1 : wrapInt (wrapInt (1 - 1) + 1) = 1 := by decide
  have h2 : wrapInt (1 + 0) = 1 := by decide
  rw [drawSize, h1, intn_one, andThen_ok, h2]

theorem pickCharacter_single (draws : Nat → Nat) (r : Nat) (s : GenState) :
    pickCharacter draws [r] s = .ok ([runeString r], s.drawnBy 1) := by
  have h1 : (([r].length : Nat) : Int) = 1 := rfl
  have h2 : indexRune [r] (0 : Int).toNat = .ok r := rfl
  rw [pickCharacter, h1, intn_one, andThen_ok, h2, andThen_ok]

theorem repeatGen_one (body : GenState → Except Fault (List Char × GenState)) (s : GenState)
    (out : List Char) (s1 : GenState) (h : body s = .ok (out, s1)) :
    repeatGen 1 body [] s = .ok (out, s1) := by
  rw [repeatGen_succ, h, andThen_ok, repeatGen_zero, List.nil_append]

theorem generate_literal (draws : Nat → Nat) (c : Char) (s : GenState) :
    generate draws (literal c) s = .ok ([c], s.drawnBy 2) := by
  rw [literal, generate_regExpClass, drawSize_one, andThen_ok, Int.toNat_one,
    repeatGen_one _ _ _ _ (pickCharacter_single draws c.toNat _), runeString_toNat,
    drawnBy_drawnBy]

theorem generateAll_literals (draws : Nat → Nat) (w : List Char) (s : GenState) :
    generateAll draws (w.map literal) s = .ok (w, s.drawnBy (2 * w.length)) := by
  induction w generalizing s with
  | nil => exact generateAll_nil draws s
  | cons c w ih =>
    rw [List.map_cons, generateAll_cons, generate_literal, andThen_ok, ih, andThen_ok,
      drawnBy_drawnBy]
    have : 2 + 2 * w.length = 2 * (c :: w).length := by
      rw [List.length_cons]; omega
    rw [this]
    rfl

theorem generateString_of_generate (draws : Nat → Nat) (root : RegExp) (out : List Char)
    (s : GenState) (h : generate draws root GenState.init = .ok (out, s)) :
    generateString draws root = .ok out := by
  rw [generateString_eq, h, andThen_ok]

theorem generateString_of_fault (draws : Nat → Nat) (root : RegExp) (e : Fault)
    (h : generate draws root GenState.init = .error e) :
    generateString draws root = .error e := by
  rw [generateString_eq, h, andThen_error]

theorem compileLoop_nil (skip : Nat) (rel : Rel) (stack : List Rel) :
    compileLoop [] skip rel stack = .ok (rel, stack) := by
  rw [compileLoop]

theorem compile_of_loop (r : List Char) (rel : Rel) (stack : List Rel)
    (h : compileLoop r 0 Rel.new [] = .ok (rel, stack)) : compile r = finish rel stack := by
  rw [compile, h]

theorem compile_of_loop_error (r : List Char) (e : CompileError)
    (h : compileLoop r 0 Rel.new [] = .error e) : compile r = .error e := by
  rw [compile, h]

theorem finish_plain (list : List RegExp) :
    finish { list := list, parentAlternative := none } [] = .ok (.regExpList 1 1 list false) := by
  simp [finish, Rel.freeze, Rel.isItAPartOfAlternative]

theorem compile_literals (w : List Char) (h : ∀ c ∈ w, isOrdinary c = true) :
    compile w = .ok (.regExpList 1 1 (w.map literal) false) := by
  have h1 := compileLoop_literals w [] Rel.new [] h
  rw [List.append_nil, compileLoop_nil] at h1
  rw [compile_of_loop w _ _ h1]
  exact finish_plain _

theorem generateAll_cons_ok (draws : Nat → Nat) (re : RegExp) (rest : List RegExp)
    (s s1 s2 : GenState) (o1 o2 : List Char) (h1 : generate draws re s = .ok (o1, s1))
    (h2 : generateAll draws rest s1 = .ok (o2, s2)) :
    generateAll draws (re :: rest) s = .ok (o1 ++ o2, s2) := by
  rw [generateAll_cons, h1, andThen_ok, h2, andThen_ok]

theorem generateAll_single_ok (draws : Nat → Nat) (re : RegExp) (s s1 : GenState)
    (o1 : List Char) (h1 : generate draws re s = .ok (o1, s1)) :
    generateAll draws [re] s = .ok (o1, s1) := by
  rw [generateAll_cons_ok draws re [] s s1 s1 o1 [] h1 (generateAll_nil draws s1),
    List.append_nil]

/-- A list that is not a branch, with bound (1,1): it claims the next index,
generates its parts once and stores the text under the index. -/
theorem generate_list_once (draws : Nat → Nat) (list : List RegExp) (s s2 : GenState)
    (out : List Char) (h : generateAll draws list (s.claim.drawnBy 1) = .ok (out, s2)) :
    generate draws (.regExpList 1 1 list false) s = .ok (out, s2.store s.currentIndex out) := by
  rw [generate_regExpList_outer, drawSize_one, andThen_ok, Int.toNat_one,
    repeatGen_one _ _ _ _ h, andThen_ok]

/-- A branch of an alternative, with bound (1,1): it generates its parts once. -/
theorem generate_branch_once (draws : Nat → Nat) (list : List RegExp) (s s2 : GenState)
    (out : List Char) (h : generateAll draws list (s.drawnBy 1) = .ok (out, s2)) :
    generate draws (.regExpList 1 1 list true) s = .ok (out, s2) := by
  rw [generate_regExpList_branch, drawSize_one, andThen_ok, Int.toNat_one,
    repeatGen_one _ _ _ _ h, andThen_ok]

theorem generate_literals_root (draws : Nat → Nat) (w : List Char) :
    generateString draws (.regExpList 1 1 (w.map literal) false) = .ok w :=
  generateString_of_generate _ _ _ _
    (generate_list_once draws _ _ _ _ (generateAll_literals draws w _))

/-- C1. A pattern made only of ordinary characters compiles, and every
generation call returns exactly the pattern text, whatever the random draws. -/
theorem literal_pattern_generates_itself (w : List Char) (h : ∀ c ∈ w, isOrdinary c = true) :
    ∃ root, compile w = .ok root ∧ ∀ draws, generateString draws root = .ok w :=
  ⟨_, compile_literals w h, fun draws => generate_literals_root draws w⟩

theorem literal_pattern_generates_itself_witness :
    (∀ c ∈ "abc".toList, isOrdinary c = true) ∧
    ∃ root, compile "abc".toList = .ok root ∧
      ∀ draws, generateString draws root = .ok "abc".toList :=
  ⟨by decide, literal_pattern_generates_itself "abc".toList (by decide)⟩


/-! ## Groups, back references and alternation -/

theorem compileLoop_open (rest : List Char) (rel : Rel) (stack : List Rel) :
    compileLoop ('(' :: rest) 0 rel stack = compileLoop rest 0 Rel.new (rel :: stack) := by
  simp [compileLoop, compileStep]

theorem compileLoop_close (rest : List Char) (rel top : Rel) (stack : List Rel)
    (h : rel.parentAlternative = none) :
    compileLoop (')' :: rest) 0 rel (top :: stack) =
      compileLoop rest 0
        { top with list := top.list ++ [.regExpList 1 1 rel.list false] } stack := by
  simp [compileLoop, compileStep, h, Rel.freeze, Rel.isItAPartOfAlternative]

theorem compileLoop_close_alternative (rest : List Char) (rel top : Rel) (stack : List Rel)
    (branches : List RegExp) (h : rel.parentAlternative = some branches) :
    compileLoop (')' :: rest) 0 rel (top :: stack) =
      compileLoop rest 0
        { top with list := top.list ++
            [.regExpAlternative 1 1 (branches ++ [.regExpList 1 1 rel.list true])] } stack := by
  simp [compileLoop, compileStep, h, Rel.freeze, Rel.isItAPartOfAlternative]

theorem compileLoop_close_empty (rest : List Char) (rel : Rel) :
    compileLoop (')' :: rest) 0 rel [] = .error .UnmatchedCloseGroup := by
  simp [compileLoop, compileStep]

theorem compileLoop_bar (rest : List Char) (rel : Rel) (stack : List Rel)
    (h : rel.parentAlternative = none) :
    compileLoop ('|' :: rest) 0 rel stack =
      compileLoop rest 0
        { list := [], parentAlternative := some [.regExpList 1 1 rel.list true] } stack := by
  simp [compileLoop, compileStep, h, Rel.freeze, Rel.isItAPartOfAlternative]

theorem compileLoop_bar_alternative (rest : List Char) (rel : Rel) (stack : List Rel)
    (branches : List RegExp) (h : rel.parentAlternative = some branches) :
    compileLoop ('|' :: rest) 0 rel stack =
      compileLoop rest 0
        { list := [],
          parentAlternative := some (branches ++ [.regExpList 1 1 rel.list true]) } stack := by
  simp [compileLoop, compileStep, h, Rel.freeze, Rel.isItAPartOfAlternative]

theorem compileLoop_backreference (c1 : Char) (rest : List Char) (rel : Rel) (stack : List Rel)
    (digit : Int) (h : atoiRune c1 = some digit) :
    compileLoop ('\\' :: c1 :: rest) 0 rel stack =
      compileLoop rest 0
        { rel with list := rel.list ++ [.regExpBackReference 1 1 digit] } stack := by
  simp [compileLoop, compileStep, h]

theorem compileLoop_escape (c1 : Char) (rest : List Char) (rel : Rel) (stack : List Rel)
    (h : atoiRune c1 = none) :
    compileLoop ('\\' :: c1 :: rest) 0 rel stack =
      compileLoop rest 0 { rel with list := rel.list ++ [literal c1] } stack := by
  simp [compileLoop, compileStep, h, literal]

theorem finish_alternative (list branches : List RegExp) :
    finish { list := list, parentAlternative := some branches } [] =
      .ok (.regExpList 1 1
        [.regExpAlternative 1 1 (branches ++ [.regExpList 1 1 list true])] false) := by
  simp [finish, Rel.freeze, Rel.isItAPartOfAlternative]

theorem finish_open (rel top : Rel) (stack : List Rel) :
    finish rel (top :: stack) = .error .UnmatchedOpenGroup := by
  simp [finish]

theorem wrapInt_zero_add_one : wrapInt (0 + 1) = 1 := by decide

theorem wrapInt_one_add_one : wrapInt (1 + 1) = 2 := by decide

theorem wrapInt_two_add_one : wrapInt (2 + 1) = 3 := by decide

theorem compile_group_backreference (w : List Char) (h : ∀ c ∈ w, isOrdinary c = true) :
    compile ('(' :: w ++ [')', '\\', '1']) = .ok (.regExpList 1 1
      [.regExpList 1 1 (w.map literal) false, .regExpBackReference 1 1 1] false) := by
  have hd : atoiRune '1' = some 1 := by decide
  have h1 : compileLoop ('(' :: w ++ [')', '\\', '1']) 0 Rel.new [] =
      .ok ({ list := [.regExpList 1 1 (w.map literal) false, .regExpBackReference 1 1 1],
             parentAlternative := none }, []) := by
    rw [List.cons_append, compileLoop_open, compileLoop_literals w _ _ _ h,
      compileLoop_close _ _ _ _ rfl, compileLoop_backreference _ _ _ _ 1 hd, compileLoop_nil]
    rfl
  rw [compile_of_loop _ _ _ h1]
  exact finish_plain _

theorem store_subpatterns_same (s : GenState) (index : Int) (result : List Char) :
    (s.store index result).subpatterns index = some result := if_pos rfl

theorem store_subpatterns_other (s : GenState) (index k : Int) (result : List Char)
    (h : k ≠ index) : (s.store index result).subpatterns k = s.subpatterns k := if_neg h

theorem generate_backreference_found (draws : Nat → Nat) (index : Int) (str : List Char)
    (s : GenState) (h : s.subpatterns index = some str) :
    generate draws (.regExpBackReference 1 1 index) s = .ok (str, s.drawnBy 1) := by
  rw [generate_regExpBackReference_found draws 1 1 index s str h, drawSize_one, andThen_ok,
    Int.toNat_one, repeatGen_one _ _ str _ rfl]

theorem generate_group_backreference (draws : Nat → Nat) (w : List Char) :
    ∃ s, generate draws (.regExpList 1 1
        [.regExpList 1 1 (w.map literal) false, .regExpBackReference 1 1 1] false)
        GenState.init = .ok (w ++ w, s) ∧
      s.subpatterns 0 = some (w ++ w) ∧ s.subpatterns 1 = some w := by
  have hg := generate_list_once draws (w.map literal) (GenState.init.claim.drawnBy 1) _ w
    (generateAll_literals draws w _)
  have hidx : (GenState.init.claim.drawnBy 1).currentIndex = 1 := wrapInt_zero_add_one
  rw [hidx] at hg
  have hall := generateAll_cons_ok draws _ _ _ _ _ _ _ hg
    (generateAll_single_ok draws _ _ _ _
      (generate_backreference_found draws 1 w _ (store_subpatterns_same _ 1 w)))
  refine ⟨_, generate_list_once draws _ _ _ _ hall, store_subpatterns_same _ _ _, ?_⟩
  have hne : (1 : Int) ≠ GenState.init.currentIndex := by decide
  rw [store_subpatterns_other _ _ 1 _ hne, drawnBy_subpatterns]
  exact store_subpatterns_same _ 1 w

/-- C3. For every word `w` of ordinary characters the pattern `(w)\1` compiles,
and every generation call returns `w` followed by `w`: the root list stores its
text under index 0 and the group stores `w` under index 1, where the back
reference finds it. -/
theorem group_backreference_repeats (w : List Char) (h : ∀ c ∈ w, isOrdinary c = true) :
    ∃ root, compile ('(' :: w ++ [')', '\\', '1']) = .ok root ∧
      ∀ draws, generateString draws root = .ok (w ++ w) ∧
        ∃ s, generate draws root GenState.init = .ok (w ++ w, s) ∧
          s.subpatterns 0 = some (w ++ w) ∧ s.subpatterns 1 = some w := by
  refine ⟨_, compile_group_backreference w h, fun draws => ?_⟩
  obtain ⟨s, hs, h0, h1⟩ := generate_group_backreference draws w
  exact ⟨generateString_of_generate _ _ _ _ hs, s, hs, h0, h1⟩

theorem group_backreference_repeats_witness :
    (∀ c ∈ "ab".toList, isOrdinary c = true) ∧
    ∃ root, compile "(ab)\\1".toList = .ok root ∧
      ∀ draws, generateString draws root = .ok "abab".toList ∧
        ∃ s, generate draws root GenState.init = .ok ("abab".toList, s) ∧
          s.subpatterns 0 = some "abab".toList ∧ s.subpatterns 1 = some "ab".toList :=
  ⟨by decide, group_backreference_repeats "ab".toList (by decide)⟩


theorem alternative_pick (draws : Nat → Nat) (b1 b2 : RegExp) (t : GenState) :
    (andThen (intn draws (([b1, b2].length : Nat) : Int) t) fun k =>
      generateNth draws [b1, b2] k.1.toNat k.2) =
      if draws t.pos % 2 = 0 then generate draws b1 (t.drawnBy 1)
      else generate draws b2 (t.drawnBy 1) := by
  have hlen : (([b1, b2].length : Nat) : Int) = 2 := rfl
  have h2 : (2 : Int).toNat = 2 := rfl
  rw [hlen, intn_pos draws 2 t (by decide), andThen_ok, h2, Int.toNat_ofNat]
  rcases Nat.mod_two_eq_zero_or_one (draws t.pos) with h | h
  · rw [h, generateNth_zero, if_pos rfl]
  · rw [h, generateNth_succ, generateNth_zero, if_neg (by decide)]

/-- An alternative of two branches with bound (1,1): it claims the next index,
draws the branch, generates it and stores the text under the index. -/
theorem generate_alternative_two (draws : Nat → Nat) (b1 b2 : RegExp) (s s1 s2 : GenState)
    (o1 o2 : List Char)
    (h1 : generate draws b1 ((s.claim.drawnBy 1).drawnBy 1) = .ok (o1, s1))
    (h2 : generate draws b2 ((s.claim.drawnBy 1).drawnBy 1) = .ok (o2, s2)) :
    generate draws (.regExpAlternative 1 1 [b1, b2]) s =
      if draws (s.pos + 1) % 2 = 0 then .ok (o1, s1.store s.currentIndex o1)
      else .ok (o2, s2.store s.currentIndex o2) := by
  have hpos : (s.claim.drawnBy 1).pos = s.pos + 1 := rfl
  have hbody := alternative_pick draws b1 b2 (s.claim.drawnBy 1)
  rw [hpos] at hbody
  rw [generate_regExpAlternative, drawSize_one, andThen_ok, Int.toNat_one]
  by_cases h : draws (s.pos + 1) % 2 = 0
  · rw [if_pos h, h1] at hbody
    rw [if_pos h, repeatGen_one _ _ _ _ hbody, andThen_ok]
  · rw [if_neg h, h2] at hbody
    rw [if_neg h, repeatGen_one _ _ _ _ hbody, andThen_ok]

theorem compile_alternation (w1 w2 : List Char)
    (h1 : ∀ c ∈ w1, isOrdinary c = true) (h2 : ∀ c ∈ w2, isOrdinary c = true) :
    compile ('(' :: w1 ++ '|' :: w2 ++ [')']) = .ok (.regExpList 1 1 [.regExpAlternative 1 1
      [.regExpList 1 1 (w1.map literal) true, .regExpList 1 1 (w2.map literal) true]] false) := by
  have hl : compileLoop ('(' :: w1 ++ '|' :: w2 ++ [')']) 0 Rel.new [] =
      .ok ({ list := [.regExpAlternative 1 1
        [.regExpList 1 1 (w1.map literal) true, .regExpList 1 1 (w2.map literal) true]],
             parentAlternative := none }, []) := by
    simp only [List.cons_append, List.append_assoc]
    rw [compileLoop_open, compileLoop_literals w1 _ _ _ h1, compileLoop_bar _ _ _ rfl,
      compileLoop_literals w2 _ _ _ h2, compileLoop_close_alternative _ _ _ _ _ rfl,
      compileLoop_nil]
    rfl
  rw [compile_of_loop _ _ _ hl]
  exact finish_plain _

theorem alternation_output (draws : Nat → Nat) (w1 w2 : List Char) :
    generateString draws (.regExpList 1 1 [.regExpAlternative 1 1
      [.regExpList 1 1 (w1.map literal) true, .regExpList 1 1 (w2.map literal) true]] false) =
      .ok (if draws 2 % 2 = 0 then w1 else w2) := by
  have ha := generate_alternative_two draws _ _ (GenState.init.claim.drawnBy 1) _ _ _ _
    (generate_branch_once draws _ _ _ _ (generateAll_literals draws w1 _))
    (generate_branch_once draws _ _ _ _ (generateAll_literals draws w2 _))
  have hpos : (GenState.init.claim.drawnBy 1).pos + 1 = 2 := rfl
  rw [hpos] at ha
  by_cases h : draws 2 % 2 = 0
  · rw [if_pos h] at ha
    rw [if_pos h]
    exact generateString_of_generate _ _ _ _
      (generate_list_once draws _ _ _ _ (generateAll_single_ok draws _ _ _ _ ha))
  · rw [if_neg h] at ha
    rw [if_neg h]
    exact generateString_of_generate _ _ _ _
      (generate_list_once draws _ _ _ _ (generateAll_single_ok draws _ _ _ _ ha))

/-- C4. For all words `w1`, `w2` of ordinary characters the pattern `(w1|w2)`
compiles, every generated output is exactly `w1` or exactly `w2`, and each of
the two is the output for some random draws. -/
theorem alternation_generates_one_branch (w1 w2 : List Char)
    (h1 : ∀ c ∈ w1, isOrdinary c = true) (h2 : ∀ c ∈ w2, isOrdinary c = true) :
    ∃ root, compile ('(' :: w1 ++ '|' :: w2 ++ [')']) = .ok root ∧
      (∀ draws, generateString draws root = .ok w1 ∨ generateString draws root = .ok w2) ∧
      (∃ draws, generateString draws root = .ok w1) ∧
      (∃ draws, generateString draws root = .ok w2) := by
  refine ⟨_, compile_alternation w1 w2 h1 h2, ?_, ⟨fun _ => 0, ?_⟩, ⟨fun _ => 1, ?_⟩⟩
  · intro draws
    rw [alternation_output]
    by_cases h : draws 2 % 2 = 0
    · left; rw [if_pos h]
    · right; rw [if_neg h]
  · rw [alternation_output]; rfl
  · rw [alternation_output]; rfl

theorem alternation_generates_one_branch_witness :
    (∀ c ∈ "cat".toList, isOrdinary c = true) ∧ (∀ c ∈ "dog".toList, isOrdinary c = true) ∧
    ∃ root, compile "(cat|dog)".toList = .ok root ∧
      (∀ draws, generateString draws root = .ok "cat".toList ∨
        generateString draws root = .ok "dog".toList) ∧
      (∃ draws, generateString draws root = .ok "cat".toList) ∧
      (∃ draws, generateString draws root = .ok "dog".toList) :=
  ⟨by decide, by decide,
    alternation_generates_one_branch "cat".toList "dog".toList (by decide) (by decide)⟩


/-! ## Faults and repetition -/

theorem repeatGen_one_error (body : GenState → Except Fault (List Char × GenState))
    (s : GenState) (e : Fault) (h : body s = .error e) :
    repeatGen 1 body [] s = .error e := by
  rw [repeatGen_succ, h, andThen_error]

theorem generateAll_cons_error (draws : Nat → Nat) (re : RegExp) (rest : List RegExp)
    (s : GenState) (e : Fault) (h : generate draws re s = .error e) :
    generateAll draws (re :: rest) s = .error e := by
  rw [generateAll_cons, h, andThen_error]

theorem generate_list_once_error (draws : Nat → Nat) (list : List RegExp) (s : GenState)
    (e : Fault) (h : generateAll draws list (s.claim.drawnBy 1) = .error e) :
    generate draws (.regExpList 1 1 list false) s = .error e := by
  rw [generate_regExpList_outer, drawSize_one, andThen_ok, Int.toNat_one,
    repeatGen_one_error _ _ _ h, andThen_error]

theorem pickCharacter_empty (draws : Nat → Nat) (s : GenState) :
    pickCharacter draws [] s = .error .invalidIntnArgument := by
  have h : ((([] : List Nat).length : Nat) : Int) = 0 := rfl
  rw [pickCharacter, h, intn_nonpos draws 0 s (le_refl 0), andThen_error]

theorem generate_empty_class (draws : Nat → Nat) (s : GenState) :
    generate draws (.regExpClass 1 1 []) s = .error .invalidIntnArgument := by
  rw [generate_regExpClass, drawSize_one, andThen_ok, Int.toNat_one,
    repeatGen_one_error _ _ _ (pickCharacter_empty draws _)]

theorem repeatGen_pick_single (draws : Nat → Nat) (r : Nat) (n : Nat) (acc : List Char)
    (s : GenState) :
    repeatGen n (pickCharacter draws [r]) acc s =
      .ok (acc ++ List.replicate n (runeString r), s.drawnBy n) := by
  induction n generalizing acc s with
  | zero =>
    rw [repeatGen_zero, List.replicate_zero, List.append_nil]
    rfl
  | succ k ih =>
    rw [repeatGen_succ, pickCharacter_single, andThen_ok, ih, drawnBy_drawnBy,
      List.replicate_succ, Nat.add_comm 1 k]
    simp only [List.append_assoc, List.singleton_append]

theorem drawSize_range (draws : Nat → Nat) (m n : Int) (s : GenState) (h0 : 0 ≤ m)
    (h1 : m ≤ n) (h2 : n - m + 1 < 2 ^ 63) (h3 : n < 2 ^ 63) :
    drawSize draws m n s =
      .ok (m + ((draws s.pos % (n - m + 1).toNat : Nat) : Int), s.drawnBy 1) := by
  have e1 : wrapInt (n - m) = n - m := wrapInt_eq_self (by omega) (by omega)
  have e2 : wrapInt (n - m + 1) = n - m + 1 := wrapInt_eq_self (by omega) (by omega)
  have hpos : 0 < n - m + 1 := by omega
  have hk : ((draws s.pos % (n - m + 1).toNat : Nat) : Int) < n - m + 1 := by
    have hn : (((n - m + 1).toNat : Nat) : Int) = n - m + 1 := Int.toNat_of_nonneg (by omega)
    have := Nat.mod_lt (draws s.pos) (show 0 < (n - m + 1).toNat by omega)
    omega
  have e3 : wrapInt (m + ((draws s.pos % (n - m + 1).toNat : Nat) : Int)) =
      m + ((draws s.pos % (n - m + 1).toNat : Nat) : Int) :=
    wrapInt_eq_self (by omega) (by omega)
  rw [drawSize, e1, e2, intn_pos draws _ s hpos, andThen_ok, e3]

/-- A class of one rune under a bound `(m, n)` with `0 ≤ m ≤ n` inside the
range of `int`: the rune repeated `m + k` times, `k` the draw reduced into
`[0, n - m]`. -/
theorem generate_single_class (draws : Nat → Nat) (m n : Int) (r : Nat) (s : GenState)
    (h0 : 0 ≤ m) (h1 : m ≤ n) (h2 : n - m + 1 < 2 ^ 63) (h3 : n < 2 ^ 63) :
    generate draws (.regExpClass m n [r]) s =
      .ok (List.replicate (m + ((draws s.pos % (n - m + 1).toNat : Nat) : Int)).toNat
          (runeString r),
        (s.drawnBy 1).drawnBy (m + ((draws s.pos % (n - m + 1).toNat : Nat) : Int)).toNat) := by
  rw [generate_regExpClass, drawSize_range draws m n s h0 h1 h2 h3, andThen_ok,
    repeatGen_pick_single, List.nil_append]

set_option maxRecDepth 100000 in
theorem compile_inverted_printable :
    compile "[^!-~]".toList = .ok (.regExpList 1 1 [.regExpClass 1 1 []] false) := by
  rfl


/-- C2. The pattern `[^!-~]` compiles to a class whose character list is
empty: the emptiness check of line 252 runs before the inversion.  Generating
from the tree then calls `rand.Intn(0)`, which panics, whatever the draws. -/
theorem inverted_class_generation_faults :
    compile "[^!-~]".toList = .ok (.regExpList 1 1 [.regExpClass 1 1 []] false) ∧
    ∀ draws, generateString draws (.regExpList 1 1 [.regExpClass 1 1 []] false) =
      .error .invalidIntnArgument :=
  ⟨compile_inverted_printable, fun draws =>
    generateString_of_fault _ _ _ (generate_list_once_error draws _ _ _
      (generateAll_cons_error draws _ _ _ _ (generate_empty_class draws _)))⟩

/-- C6. A quantifier with no preceding part in the current list, and a
backslash at the end of the pattern, end the compile loop by an index out of
range, which is none of the six syntax errors. -/
theorem quantifier_without_operand_faults :
    compile "*".toList = .error .IndexOutOfRange ∧
    compile "(+)".toList = .error .IndexOutOfRange ∧
    compile "a|?".toList = .error .IndexOutOfRange ∧
    compile "{2}".toList = .error .IndexOutOfRange ∧
    compile "a\\".toList = .error .IndexOutOfRange :=
  ⟨rfl, rfl, rfl, rfl, rfl⟩

theorem generate_zero_to_ten (draws : Nat → Nat) :
    generateString draws (.regExpList 1 1 [.regExpClass 0 10 [97]] false) =
      .ok (List.replicate (draws 1 % 11) 'a') := by
  have hg := generate_single_class draws 0 10 97 (GenState.init.claim.drawnBy 1)
    (by decide) (by decide) (by decide) (by decide)
  have e : (0 + ((draws (GenState.init.claim.drawnBy 1).pos % ((10 : Int) - 0 + 1).toNat :
      Nat) : Int)).toNat = draws 1 % 11 := by
    have h11 : ((10 : Int) - 0 + 1).toNat = 11 := rfl
    have hp : (GenState.init.claim.drawnBy 1).pos = 1 := rfl
    rw [h11, hp, zero_add, Int.toNat_ofNat]
  have hr : runeString 97 = 'a' := rfl
  rw [e, hr] at hg
  exact generateString_of_generate _ _ _ _
    (generate_list_once draws _ _ _ _ (generateAll_single_ok draws _ _ _ _ hg))

/-- C10. The quantifier `{0,0}` sets the bound (0,10), not (0,0): a maximum
that reads 0 is taken for a missing maximum (line 302).  The pattern `a{0,0}`
generates `a` repeated `d mod 11` times, `d` the second draw; with a draw of 3
it generates `aaa`. -/
theorem zero_zero_quantifier_bound :
    compile "a{0,0}".toList = .ok (.regExpList 1 1 [.regExpClass 0 10 [97]] false) ∧
    (∀ draws, generateString draws (.regExpList 1 1 [.regExpClass 0 10 [97]] false) =
      .ok (List.replicate (draws 1 % 11) 'a')) ∧
    generateString (fun _ => 3) (.regExpList 1 1 [.regExpClass 0 10 [97]] false) =
      .ok "aaa".toList :=
  ⟨rfl, generate_zero_to_ten, generate_zero_to_ten (fun _ => 3)⟩


/-! ## Parentheses -/

theorem compileLoop_close_depth (rest : List Char) (rel top : Rel) (stack : List Rel) :
    ∃ rel1, compileLoop (')' :: rest) 0 rel (top :: stack) = compileLoop rest 0 rel1 stack := by
  cases h : rel.parentAlternative with
  | none => exact ⟨_, compileLoop_close rest rel top stack h⟩
  | some branches => exact ⟨_, compileLoop_close_alternative rest rel top stack branches h⟩

theorem compileLoop_parens (w : List Char)
    (h : ∀ c ∈ w, c = '(' ∨ c = ')' ∨ isOrdinary c = true) (rel : Rel) (stack : List Rel) :
    (parenDepth w stack.length = none →
      compileLoop w 0 rel stack = .error .UnmatchedCloseGroup) ∧
    (∀ d, parenDepth w stack.length = some d →
      ∃ rel1 stack1, compileLoop w 0 rel stack = .ok (rel1, stack1) ∧ stack1.length = d) := by
  induction w generalizing rel stack with
  | nil =>
    refine ⟨by simp [parenDepth], ?_⟩
    intro d hd
    simp only [parenDepth, Option.some.injEq] at hd
    exact ⟨rel, stack, by simp [compileLoop], hd⟩
  | cons c w ih =>
    have hw : ∀ x ∈ w, x = '(' ∨ x = ')' ∨ isOrdinary x = true :=
      fun x hx => h x (List.mem_cons_of_mem _ hx)
    rcases h c (List.mem_cons_self _ _) with hc | hc | hc
    · subst hc
      have := ih hw Rel.new (rel :: stack)
      simpa [parenDepth, compileLoop_open] using this
    · subst hc
      cases stack with
      | nil => simp [parenDepth, compileLoop_close_empty]
      | cons top stack =>
        obtain ⟨rel1, hrel1⟩ := compileLoop_close_depth w rel top stack
        have := ih hw rel1 stack
        simpa [parenDepth, hrel1] using this
    · have h1 : c ≠ '(' := by rintro rfl; simp [isOrdinary] at hc
      have h2 : c ≠ ')' := by rintro rfl; simp [isOrdinary] at hc
      have := ih hw { rel with list := rel.list ++ [literal c] } stack
      simpa [parenDepth, h1, h2, compileLoop_ordinary c w rel stack hc] using this

theorem parenDepth_open (w : List Char) (d : Nat) :
    parenDepth ('(' :: w) d = parenDepth w (d + 1) := rfl

theorem parenDepth_close_zero (w : List Char) : parenDepth (')' :: w) 0 = none := rfl

theorem parenDepth_close_succ (w : List Char) (k : Nat) :
    parenDepth (')' :: w) (k + 1) = parenDepth w k := rfl

theorem parenDepth_other (c : Char) (w : List Char) (d : Nat) (h1 : c ≠ '(') (h2 : c ≠ ')') :
    parenDepth (c :: w) d = parenDepth w d := by
  simp [parenDepth, h1, h2]

theorem parenDepth_none_iff (w : List Char) (d : Nat) :
    parenDepth w d = none ↔ ∃ p, p <+: w ∧ p.count '(' + d < p.count ')' := by
  induction w generalizing d with
  | nil => simp [parenDepth]
  | cons c w ih =>
    by_cases h1 : c = '('
    · subst h1
      rw [parenDepth_open, ih]
      constructor
      · rintro ⟨p, hp, hlt⟩
        refine ⟨'(' :: p, (List.prefix_cons_inj _).mpr hp, ?_⟩
        simp only [List.count_cons_self, List.count_cons_of_ne (show ')' ≠ '(' by decide)]
        omega
      · rintro ⟨p, hp, hlt⟩
        rcases List.prefix_cons_iff.mp hp with rfl | ⟨t, rfl, ht⟩
        · simp at hlt
        · refine ⟨t, ht, ?_⟩
          simp only [List.count_cons_self,
            List.count_cons_of_ne (show ')' ≠ '(' by decide)] at hlt
          omega
    · by_cases h2 : c = ')'
      · subst h2
        cases d with
        | zero =>
          rw [parenDepth_close_zero]
          refine ⟨fun _ => ⟨[')'], (List.prefix_cons_inj _).mpr List.nil_prefix, ?_⟩,
            fun _ => rfl⟩
          decide
        | succ k =>
          rw [parenDepth_close_succ, ih]
          constructor
          · rintro ⟨p, hp, hlt⟩
            refine ⟨')' :: p, (List.prefix_cons_inj _).mpr hp, ?_⟩
            simp only [List.count_cons_self, List.count_cons_of_ne (show '(' ≠ ')' by decide)]
            omega
          · rintro ⟨p, hp, hlt⟩
            rcases List.prefix_cons_iff.mp hp with rfl | ⟨t, rfl, ht⟩
            · simp at hlt
            · refine ⟨t, ht, ?_⟩
              simp only [List.count_cons_self,
                List.count_cons_of_ne (show '(' ≠ ')' by decide)] at hlt
              omega
      · rw [parenDepth_other c w d h1 h2, ih]
        have e1 : ∀ t : List Char, (c :: t).count '(' = t.count '(' := fun t =>
          List.count_cons_of_ne (Ne.symm h1) t
        have e2 : ∀ t : List Char, (c :: t).count ')' = t.count ')' := fun t =>
          List.count_cons_of_ne (Ne.symm h2) t
        constructor
        · rintro ⟨p, hp, hlt⟩
          exact ⟨c :: p, (List.prefix_cons_inj _).mpr hp, by rw [e1, e2]; exact hlt⟩
        · rintro ⟨p, hp, hlt⟩
          rcases List.prefix_cons_iff.mp hp with rfl | ⟨t, rfl, ht⟩
          · simp at hlt
          · exact ⟨t, ht, by rw [e1, e2] at hlt; exact hlt⟩

theorem parenDepth_some (w : List Char) (d d1 : Nat) (h : parenDepth w d = some d1) :
    d1 + w.count ')' = d + w.count '(' := by
  induction w generalizing d with
  | nil =>
    have : d = d1 := by simpa [parenDepth] using h
    subst this
    rfl
  | cons c w ih =>
    by_cases h1 : c = '('
    · subst h1
      rw [parenDepth_open] at h
      have := ih _ h
      rw [List.count_cons_self, List.count_cons_of_ne (show ')' ≠ '(' by decide)]
      omega
    · by_cases h2 : c = ')'
      · subst h2
        cases d with
        | zero => rw [parenDepth_close_zero] at h; exact Option.noConfusion h
        | succ k =>
          rw [parenDepth_close_succ] at h
          have := ih _ h
          rw [List.count_cons_self, List.count_cons_of_ne (show '(' ≠ ')' by decide)]
          omega
      · rw [parenDepth_other c w d h1 h2] at h
        have := ih _ h
        rw [List.count_cons_of_ne (Ne.symm h1), List.count_cons_of_ne (Ne.symm h2)]
        exact this

/-- C5. For a pattern made only of `(`, `)` and ordinary characters:
compilation fails with UnmatchedCloseGroup when some prefix holds more `)` than
`(`; otherwise it fails with UnmatchedOpenGroup when the pattern holds more `(`
than `)`; otherwise it succeeds.  So it succeeds exactly when the parentheses
are balanced. -/
theorem parentheses_balance (w : List Char)
    (h : ∀ c ∈ w, c = '(' ∨ c = ')' ∨ isOrdinary c = true) :
    ((∃ p, p <+: w ∧ p.count '(' < p.count ')') →
      compile w = .error .UnmatchedCloseGroup) ∧
    ((∀ p, p <+: w → p.count ')' ≤ p.count '(') → w.count ')' < w.count '(' →
      compile w = .error .UnmatchedOpenGroup) ∧
    ((∃ root, compile w = .ok root) ↔
      ((∀ p, p <+: w → p.count ')' ≤ p.count '(') ∧ w.count ')' = w.count '(')) := by
  have key := compileLoop_parens w h Rel.new []
  have hnone := parenDepth_none_iff w 0
  simp only [List.length_nil, Nat.add_zero] at key hnone
  have hbal : (∀ p, p <+: w → p.count ')' ≤ p.count '(') → ∃ d, parenDepth w 0 = some d := by
    intro hp
    cases hd : parenDepth w 0 with
    | some d => exact ⟨d, rfl⟩
    | none =>
      obtain ⟨p, hp1, hp2⟩ := hnone.mp hd
      exact absurd (hp p hp1) (by omega)
  refine ⟨?_, ?_, ?_⟩
  · intro hex
    have := key.1 (hnone.mpr hex)
    simp [compile, this]
  · intro hp hlt
    obtain ⟨d, hd⟩ := hbal hp
    obtain ⟨rel1, stack1, hc, hlen⟩ := key.2 d hd
    have := parenDepth_some w 0 d hd
    have hpos : 0 < stack1.length := by omega
    simp [compile, hc, finish, hpos]
  · constructor
    · rintro ⟨root, hroot⟩
      cases hd : parenDepth w 0 with
      | none =>
        have := key.1 hd
        simp [compile, this] at hroot
      | some d =>
        obtain ⟨rel1, stack1, hc, hlen⟩ := key.2 d hd
        have hcount := parenDepth_some w 0 d hd
        have hp : ∀ p, p <+: w → p.count ')' ≤ p.count '(' := by
          intro p hp
          by_contra hcon
          have : parenDepth w 0 = none := hnone.mpr ⟨p, hp, by omega⟩
          rw [this] at hd
          exact Option.noConfusion hd
        refine ⟨hp, ?_⟩
        by_contra hne
        have hpos : 0 < stack1.length := by omega
        simp [compile, hc, finish, hpos] at hroot
    · rintro ⟨hp, heq⟩
      obtain ⟨d, hd⟩ := hbal hp
      obtain ⟨rel1, stack1, hc, hlen⟩ := key.2 d hd
      have := parenDepth_some w 0 d hd
      have hzero : stack1.length = 0 := by omega
      simp [compile, hc, finish, hzero]

theorem parentheses_balance_witness :
    (∀ c ∈ "(a(b)c)".toList, c = '(' ∨ c = ')' ∨ isOrdinary c = true) ∧
    (((∃ p, p <+: "(a(b)c)".toList ∧ p.count '(' < p.count ')') →
      compile "(a(b)c)".toList = .error .UnmatchedCloseGroup) ∧
    ((∀ p, p <+: "(a(b)c)".toList → p.count ')' ≤ p.count '(') →
      ("(a(b)c)".toList).count ')' < ("(a(b)c)".toList).count '(' →
      compile "(a(b)c)".toList = .error .UnmatchedOpenGroup) ∧
    ((∃ root, compile "(a(b)c)".toList = .ok root) ↔
      ((∀ p, p <+: "(a(b)c)".toList → p.count ')' ≤ p.count '(') ∧
        ("(a(b)c)".toList).count ')' = ("(a(b)c)".toList).count '('))) :=
  ⟨by decide, parentheses_balance "(a(b)c)".toList (by decide)⟩


/-! ## Character classes -/

theorem classBody_nil (skip : Nat) (chars : List Nat) (n : Nat) :
    classBody [] skip chars n = (chars, n, false) := by
  rw [classBody]

theorem classBody_skip (c : Char) (tl : List Char) (skip : Nat) (chars : List Nat) (n : Nat) :
    classBody (c :: tl) (skip + 1) chars n = classBody tl skip chars n := by
  rw [classBody]

theorem classBody_close (tl : List Char) (chars : List Nat) (n : Nat) :
    classBody (']' :: tl) 0 chars n = (chars, n, true) := by
  rw [classBody, if_pos rfl]

theorem classBody_range (c d : Char) (tl : List Char) (chars : List Nat) (n : Nat)
    (hc : c ≠ ']') (h : rangeEnd tl = some d) :
    classBody (c :: tl) 0 chars n =
      classBody tl 2 (chars ++ rangeRunes c.toNat d.toNat) (n + 3) := by
  rw [classBody, if_neg hc, h]

theorem classBody_single (c : Char) (tl : List Char) (chars : List Nat) (n : Nat)
    (hc : c ≠ ']') (h : rangeEnd tl = none) :
    classBody (c :: tl) 0 chars n = classBody tl 0 (chars ++ [c.toNat]) (n + 1) := by
  rw [classBody, if_neg hc, h]

theorem rangeEnd_some_iff (tl : List Char) (d : Char) :
    rangeEnd tl = some d ↔ ∃ rest, tl = '-' :: d :: rest ∧ d ≠ ']' := by
  match tl with
  | [] => simp [rangeEnd]
  | [m] => simp [rangeEnd]
  | m :: e :: rest =>
    simp only [rangeEnd]
    constructor
    · intro h
      split at h
      · rename_i hc
        simp only [Option.some.injEq] at h
        subst h
        exact ⟨rest, by rw [hc.1], hc.2⟩
      · exact Option.noConfusion h
    · rintro ⟨rest1, h1, h2⟩
      simp only [List.cons.injEq] at h1
      obtain ⟨rfl, rfl, -⟩ := h1
      simp [h2]

theorem rangeEnd_append (tl rest : List Char) :
    rangeEnd (tl ++ ']' :: rest) = rangeEnd tl := by
  match tl with
  | [] => cases rest <;> simp [rangeEnd]
  | [m] => simp [rangeEnd]
  | m :: e :: r => simp [rangeEnd]

theorem explicitCharacters_nil (skip : Nat) : explicitCharacters [] skip = [] := by
  rw [explicitCharacters]

theorem explicitCharacters_skip (c : Char) (tl : List Char) (skip : Nat) :
    explicitCharacters (c :: tl) (skip + 1) = explicitCharacters tl skip := by
  rw [explicitCharacters]

theorem explicitCharacters_range (c d : Char) (tl : List Char) (h : rangeEnd tl = some d) :
    explicitCharacters (c :: tl) 0 =
      rangeRunes c.toNat d.toNat ++ explicitCharacters tl 2 := by
  rw [explicitCharacters, h]

theorem explicitCharacters_single (c : Char) (tl : List Char) (h : rangeEnd tl = none) :
    explicitCharacters (c :: tl) 0 = c.toNat :: explicitCharacters tl 0 := by
  rw [explicitCharacters, h]

/-- The loop of `classBody` over a body without `]`, followed by `]`: it
collects the explicit characters of the body and stops at the `]`. -/
theorem classBody_terminated (body : List Char) (hb : ']' ∉ body) (rest : List Char)
    (skip : Nat) (hs : skip ≤ body.length) (chars : List Nat) (n : Nat) :
    classBody (body ++ ']' :: rest) skip chars n =
      (chars ++ explicitCharacters body skip, n + body.length - skip, true) := by
  induction body generalizing skip chars n with
  | nil =>
    have : skip = 0 := by simpa using hs
    subst this
    rw [List.nil_append, classBody_close, explicitCharacters_nil, List.append_nil]
    rfl
  | cons c tl ih =>
    have hc : c ≠ ']' := fun h => hb (h ▸ List.mem_cons_self _ _)
    have htl : ']' ∉ tl := fun h => hb (List.mem_cons_of_mem _ h)
    cases skip with
    | succ k =>
      rw [List.cons_append, classBody_skip, ih htl k (by simpa using hs),
        explicitCharacters_skip]
      simp only [List.length_cons, Nat.add_sub_add_right, ← Nat.add_assoc]
    | zero =>
      rw [List.cons_append]
      cases hr : rangeEnd tl with
      | some d =>
        have hlen : 2 ≤ tl.length := by
          obtain ⟨r1, h1, -⟩ := (rangeEnd_some_iff tl d).mp hr
          rw [h1]; simp
        rw [classBody_range c d _ _ _ hc (by rw [rangeEnd_append]; exact hr),
          ih htl 2 hlen, explicitCharacters_range c d tl hr]
        simp only [List.append_assoc, List.length_cons]
        congr 2
        omega
      | none =>
        rw [classBody_single c _ _ _ hc (by rw [rangeEnd_append]; exact hr),
          ih htl 0 (Nat.zero_le _), explicitCharacters_single c tl hr]
        simp only [List.append_assoc, List.singleton_append, List.length_cons]
        congr 2
        omega


theorem compileStep_class (c1 : Char) (b1 rest : List Char) (rel : Rel) (stack : List Rel)
    (hb : ']' ∉ c1 :: b1) (hne : explicitCharacters (c1 :: b1) 0 ≠ []) (hfirst : c1 ≠ '^') :
    compileStep '[' (c1 :: b1 ++ ']' :: rest) rel stack =
      .ok ((c1 :: b1).length + 1,
        { rel with list := rel.list ++ [.regExpClass 1 1 (explicitCharacters (c1 :: b1) 0)] },
        stack) := by
  have hcb := classBody_terminated (c1 :: b1) hb rest 0 (Nat.zero_le _) [] 0
  rw [List.cons_append] at hcb
  have hlen : (explicitCharacters (c1 :: b1) 0).length ≠ 0 := fun h =>
    hne (List.length_eq_zero.mp h)
  simp only [compileStep, List.cons_append, hfirst, decide_False]
  simp only [Char.reduceEq, if_false, if_true, Bool.false_eq_true]
  rw [hcb]
  simp [hlen]

theorem compileLoop_class (body rest : List Char) (rel : Rel) (stack : List Rel)
    (hb : ']' ∉ body) (hne : explicitCharacters body 0 ≠ []) (hfirst : body.head? ≠ some '^') :
    compileLoop ('[' :: body ++ ']' :: rest) 0 rel stack =
      compileLoop rest 0
        { rel with list := rel.list ++ [.regExpClass 1 1 (explicitCharacters body 0)] }
        stack := by
  match body, hb, hne, hfirst with
  | [], _, hne, _ => exact absurd (explicitCharacters_nil 0) hne
  | c1 :: b1, hb, hne, hfirst =>
    have hc1 : c1 ≠ '^' := fun h => hfirst (by rw [h]; rfl)
    have hskip := compileLoop_skip ((c1 :: b1) ++ [']']) rest
      { rel with list := rel.list ++ [.regExpClass 1 1 (explicitCharacters (c1 :: b1) 0)] } stack
    simp only [List.append_assoc, List.singleton_append, List.length_append,
      List.length_singleton] at hskip
    rw [List.cons_append, compileLoop, compileStep_class c1 b1 rest rel stack hb hne hc1]
    exact hskip

theorem compileStep_inverted_class (body rest : List Char) (rel : Rel) (stack : List Rel)
    (hb : ']' ∉ body) (hne : explicitCharacters body 0 ≠ []) :
    compileStep '[' ('^' :: body ++ ']' :: rest) rel stack =
      .ok (body.length + 2,
        { rel with list := rel.list ++ [.regExpClass 1 1
            (invertChars possibleCharactersRunes (sortRunes (explicitCharacters body 0)))] },
        stack) := by
  have hcb := classBody_terminated body hb rest 0 (Nat.zero_le _) [] 0
  have hlen : (explicitCharacters body 0).length ≠ 0 := fun h =>
    hne (List.length_eq_zero.mp h)
  simp only [compileStep, List.cons_append, decide_True, if_true]
  simp only [Char.reduceEq, if_false, if_true]
  rw [hcb]
  simp [hlen]
  omega

theorem compileLoop_inverted_class (body rest : List Char) (rel : Rel) (stack : List Rel)
    (hb : ']' ∉ body) (hne : explicitCharacters body 0 ≠ []) :
    compileLoop ('[' :: '^' :: body ++ ']' :: rest) 0 rel stack =
      compileLoop rest 0
        { rel with list := rel.list ++ [.regExpClass 1 1
            (invertChars possibleCharactersRunes (sortRunes (explicitCharacters body 0)))] }
        stack := by
  have hskip := compileLoop_skip (('^' :: body) ++ [']']) rest
    { rel with list := rel.list ++ [.regExpClass 1 1
        (invertChars possibleCharactersRunes (sortRunes (explicitCharacters body 0)))] } stack
  simp only [List.append_assoc, List.singleton_append, List.length_append,
    List.length_singleton, List.length_cons, List.cons_append] at hskip
  rw [List.cons_append, compileLoop, compileStep_inverted_class body rest rel stack hb hne]
  exact hskip

theorem compileStep_empty_class (c1 : Char) (b1 rest : List Char) (rel : Rel)
    (stack : List Rel) (hb : ']' ∉ c1 :: b1) (he : explicitCharacters (c1 :: b1) 0 = [])
    (hfirst : c1 ≠ '^') :
    compileStep '[' (c1 :: b1 ++ ']' :: rest) rel stack = .error .EmptyClass := by
  have hcb := classBody_terminated (c1 :: b1) hb rest 0 (Nat.zero_le _) [] 0
  rw [List.cons_append] at hcb
  simp only [compileStep, List.cons_append, hfirst, decide_False]
  simp only [Char.reduceEq, if_false, if_true, Bool.false_eq_true]
  rw [hcb]
  simp [he]


theorem rangeEnd_of_head (l : List Char) (h : ∀ m tl, l = m :: tl → m ≠ '-') :
    rangeEnd l = none := by
  match l, h with
  | [], _ => rfl
  | [m], _ => rfl
  | m :: d :: tl, h =>
    have := h m (d :: tl) rfl
    simp [rangeEnd, this]

theorem text_head_ne_dash (items : List ClassItem) (hok : ∀ it ∈ items, it.wellFormed) :
    ∀ m tl, items.flatMap ClassItem.text = m :: tl → m ≠ '-' := by
  intro m tl h
  match items, hok with
  | [], _ => simp at h
  | .single c :: rest, hok =>
    have hw := hok _ (List.mem_cons_self _ _)
    simp only [List.flatMap_cons, ClassItem.text, List.singleton_append, List.cons.injEq] at h
    rw [← h.1]
    exact hw.2
  | .range x y :: rest, hok =>
    have hw := hok _ (List.mem_cons_self _ _)
    simp only [List.flatMap_cons, ClassItem.text, List.cons_append, List.nil_append,
      List.cons.injEq] at h
    rw [← h.1]
    exact hw.2.1

theorem explicitCharacters_items (items : List ClassItem) (hok : ∀ it ∈ items, it.wellFormed) :
    explicitCharacters (items.flatMap ClassItem.text) 0 = items.flatMap ClassItem.runes := by
  induction items with
  | nil => exact explicitCharacters_nil 0
  | cons it rest ih =>
    have hrest : ∀ it ∈ rest, it.wellFormed := fun x hx => hok x (List.mem_cons_of_mem _ hx)
    have hw := hok it (List.mem_cons_self _ _)
    cases it with
    | single c =>
      have hr := rangeEnd_of_head _ (text_head_ne_dash rest hrest)
      simp only [List.flatMap_cons, ClassItem.text, ClassItem.runes, List.singleton_append]
      rw [explicitCharacters_single c _ hr, ih hrest]
    | range x y =>
      have hr : rangeEnd ('-' :: y :: rest.flatMap ClassItem.text) = some y := by
        simp [rangeEnd, hw.2.2.1]
      simp only [List.flatMap_cons, ClassItem.text, ClassItem.runes, List.cons_append,
        List.nil_append]
      rw [explicitCharacters_range x y _ hr, explicitCharacters_skip, explicitCharacters_skip,
        ih hrest]
      rfl

theorem text_no_close (items : List ClassItem) (hok : ∀ it ∈ items, it.wellFormed) :
    ']' ∉ items.flatMap ClassItem.text := by
  intro h
  obtain ⟨it, hit, hmem⟩ := List.mem_flatMap.mp h
  have hw := hok it hit
  cases it with
  | single c =>
    simp only [ClassItem.text, List.mem_singleton] at hmem
    exact hw.1 hmem.symm
  | range x y =>
    simp only [ClassItem.text, List.mem_cons, List.mem_singleton, List.not_mem_nil,
      or_false] at hmem
    rcases hmem with h1 | h1 | h1
    · exact hw.1 h1.symm
    · exact absurd h1 (by decide)
    · exact hw.2.2.1 h1.symm

theorem runes_ne_nil (items : List ClassItem) (hne : items ≠ [])
    (hok : ∀ it ∈ items, it.wellFormed) : items.flatMap ClassItem.runes ≠ [] := by
  match items, hne, hok with
  | .single c :: rest, _, _ => simp [ClassItem.runes]
  | .range x y :: rest, _, hok =>
    have hw := hok _ (List.mem_cons_self _ _)
    have hxy : x.toNat ≤ y.toNat := hw.2.2.2.2
    intro h
    have h1 : ClassItem.runes (.range x y) = [] := by
      rw [List.flatMap_cons] at h
      exact (List.append_eq_nil.mp h).1
    have : x.toNat ∈ ClassItem.runes (.range x y) := by
      simp only [ClassItem.runes, List.Ico.mem]
      omega
    rw [h1] at this
    exact List.not_mem_nil _ this

theorem indexRune_lt (cs : List Nat) (k : Nat) (h : k < cs.length) :
    indexRune cs k = .ok (cs.get ⟨k, h⟩) := by
  rw [indexRune, List.get?_eq_get h]

theorem pickCharacter_nonempty (draws : Nat → Nat) (cs : List Nat) (s : GenState)
    (hne : cs ≠ []) :
    ∃ r, r ∈ cs ∧ pickCharacter draws cs s = .ok ([runeString r], s.drawnBy 1) := by
  have hlen : 0 < cs.length := List.length_pos.mpr hne
  have hpos : (0 : Int) < (cs.length : Int) := by exact_mod_cast hlen
  have hk : draws s.pos % cs.length < cs.length := Nat.mod_lt _ hlen
  refine ⟨cs.get ⟨draws s.pos % cs.length, hk⟩, List.get_mem _ _ _, ?_⟩
  rw [pickCharacter, intn_pos draws _ s hpos, andThen_ok, Int.toNat_ofNat, Int.toNat_ofNat,
    indexRune_lt cs _ hk, andThen_ok]

theorem generate_class_once (draws : Nat → Nat) (cs : List Nat) (s : GenState)
    (hne : cs ≠ []) :
    ∃ r, r ∈ cs ∧
      generate draws (.regExpClass 1 1 cs) s = .ok ([runeString r], (s.drawnBy 1).drawnBy 1) := by
  obtain ⟨r, hr, hp⟩ := pickCharacter_nonempty draws cs (s.drawnBy 1) hne
  refine ⟨r, hr, ?_⟩
  rw [generate_regExpClass, drawSize_one, andThen_ok, Int.toNat_one, repeatGen_one _ _ _ _ hp]

theorem generateString_class_once (draws : Nat → Nat) (cs : List Nat) (hne : cs ≠ []) :
    ∃ r, r ∈ cs ∧
      generateString draws (.regExpList 1 1 [.regExpClass 1 1 cs] false) =
        .ok [runeString r] := by
  obtain ⟨r, hr, hg⟩ := generate_class_once draws cs (GenState.init.claim.drawnBy 1) hne
  exact ⟨r, hr, generateString_of_generate _ _ _ _
    (generate_list_once draws _ _ _ _ (generateAll_single_ok draws _ _ _ _ hg))⟩

theorem compile_class (body : List Char) (hb : ']' ∉ body)
    (hne : explicitCharacters body 0 ≠ []) (hfirst : body.head? ≠ some '^') :
    compile ('[' :: body ++ [']']) =
      .ok (.regExpList 1 1 [.regExpClass 1 1 (explicitCharacters body 0)] false) := by
  have hl := compileLoop_class body [] Rel.new [] hb hne hfirst
  rw [compileLoop_nil] at hl
  rw [compile_of_loop _ _ _ hl]
  exact finish_plain _

theorem compile_inverted_class (body : List Char) (hb : ']' ∉ body)
    (hne : explicitCharacters body 0 ≠ []) :
    compile ('[' :: '^' :: body ++ [']']) =
      .ok (.regExpList 1 1 [.regExpClass 1 1
        (invertChars possibleCharactersRunes (sortRunes (explicitCharacters body 0)))] false) := by
  have hl := compileLoop_inverted_class body [] Rel.new [] hb hne
  rw [compileLoop_nil] at hl
  rw [compile_of_loop _ _ _ hl]
  exact finish_plain _


theorem pickCharacter_get (draws : Nat → Nat) (cs : List Nat) (s : GenState)
    (hlen : 0 < cs.length) :
    pickCharacter draws cs s =
      .ok ([runeString (cs.get ⟨draws s.pos % cs.length, Nat.mod_lt _ hlen⟩)], s.drawnBy 1) := by
  have hpos : (0 : Int) < (cs.length : Int) := by exact_mod_cast hlen
  rw [pickCharacter, intn_pos draws _ s hpos, andThen_ok, Int.toNat_ofNat, Int.toNat_ofNat,
    indexRune_lt cs _ (Nat.mod_lt _ hlen), andThen_ok]

theorem generateString_class_get (draws : Nat → Nat) (cs : List Nat) (hlen : 0 < cs.length) :
    generateString draws (.regExpList 1 1 [.regExpClass 1 1 cs] false) =
      .ok [runeString (cs.get ⟨draws 2 % cs.length, Nat.mod_lt _ hlen⟩)] := by
  have hp := pickCharacter_get draws cs ((GenState.init.claim.drawnBy 1).drawnBy 1) hlen
  have hpos : ((GenState.init.claim.drawnBy 1).drawnBy 1).pos = 2 := rfl
  simp only [hpos] at hp
  have hg : generate draws (.regExpClass 1 1 cs) (GenState.init.claim.drawnBy 1) =
      .ok ([runeString (cs.get ⟨draws 2 % cs.length, Nat.mod_lt _ hlen⟩)],
        ((GenState.init.claim.drawnBy 1).drawnBy 1).drawnBy 1) := by
    rw [generate_regExpClass, drawSize_one, andThen_ok, Int.toNat_one, repeatGen_one _ _ _ _ hp]
  exact generateString_of_generate _ _ _ _
    (generate_list_once draws _ _ _ _ (generateAll_single_ok draws _ _ _ _ hg))

theorem runeString_valid (r : Nat) (h : r.isValidChar) : (runeString r).toNat = r := by
  rw [runeString, if_pos h]
  simp only [Char.ofNat, h, dite_true, Char.ofNatAux]
  rfl

/-- C7 (as amended). A non-inverted class `[body]` whose body is a non-empty
list of well-formed items compiles to the in-order concatenation of the
characters and ranges of the items, and generates exactly one character: the
string conversion of a member of that list, which is the member itself
whenever the member is a Unicode scalar value. -/
theorem class_items_compile_and_generate (items : List ClassItem) (hne : items ≠ [])
    (hok : ∀ it ∈ items, it.wellFormed)
    (hfirst : (items.flatMap ClassItem.text).head? ≠ some '^') :
    compile ('[' :: items.flatMap ClassItem.text ++ [']']) =
      .ok (.regExpList 1 1 [.regExpClass 1 1 (items.flatMap ClassItem.runes)] false) ∧
    (∀ draws, ∃ r, r ∈ items.flatMap ClassItem.runes ∧
      generateString draws
        (.regExpList 1 1 [.regExpClass 1 1 (items.flatMap ClassItem.runes)] false) =
        .ok [runeString r]) ∧
    ((∀ r ∈ items.flatMap ClassItem.runes, r.isValidChar) →
      ∀ draws, ∃ ch : Char, ch.toNat ∈ items.flatMap ClassItem.runes ∧
        generateString draws
          (.regExpList 1 1 [.regExpClass 1 1 (items.flatMap ClassItem.runes)] false) =
          .ok [ch]) := by
  have hchars := explicitCharacters_items items hok
  have hnil := runes_ne_nil items hne hok
  refine ⟨?_, fun draws => generateString_class_once draws _ hnil, fun hvalid draws => ?_⟩
  · have := compile_class (items.flatMap ClassItem.text) (text_no_close items hok)
      (by rw [hchars]; exact hnil) hfirst
    rw [hchars] at this
    exact this
  · obtain ⟨r, hr, hg⟩ := generateString_class_once draws _ hnil
    exact ⟨runeString r, by rw [runeString_valid r (hvalid r hr)]; exact hr, hg⟩

theorem class_items_compile_and_generate_witness :
    [ClassItem.single 'a', ClassItem.range 'c' 'e'] ≠ [] ∧
    (∀ it ∈ [ClassItem.single 'a', ClassItem.range 'c' 'e'], it.wellFormed) ∧
    compile "[ac-e]".toList = .ok (.regExpList 1 1 [.regExpClass 1 1 [97, 99, 100, 101]] false) ∧
    (∀ draws, ∃ r, r ∈ [97, 99, 100, 101] ∧
      generateString draws (.regExpList 1 1 [.regExpClass 1 1 [97, 99, 100, 101]] false) =
        .ok [runeString r]) ∧
    ((∀ r ∈ [97, 99, 100, 101], r.isValidChar) →
      ∀ draws, ∃ ch : Char, ch.toNat ∈ [97, 99, 100, 101] ∧
        generateString draws (.regExpList 1 1 [.regExpClass 1 1 [97, 99, 100, 101]] false) =
          .ok [ch]) :=
  ⟨by simp, by
      intro it hit
      simp only [List.mem_cons, List.mem_singleton, List.not_mem_nil, or_false] at hit
      rcases hit with rfl | rfl
      · exact ⟨by decide, by decide⟩
      · exact ⟨by decide, by decide, by decide, by decide, by decide⟩,
    class_items_compile_and_generate [ClassItem.single 'a', ClassItem.range 'c' 'e']
      (by simp) (by
        intro it hit
        simp only [List.mem_cons, List.mem_singleton, List.not_mem_nil, or_false] at hit
        rcases hit with rfl | rfl
        · exact ⟨by decide, by decide⟩
        · exact ⟨by decide, by decide, by decide, by decide, by decide⟩)
      (by decide)⟩

/-- C7 (counterexample). The class of the range U+D7FF-U+E000 lists the code
points U+D7FF..U+E000, the surrogates among them; when the draw picks U+D800 the
generated string holds U+FFFD, which is no member of the list. -/
theorem class_member_counterexample :
    compile ['[', Char.ofNat 0xD7FF, '-', Char.ofNat 0xE000, ']'] =
      .ok (.regExpList 1 1 [.regExpClass 1 1 (List.Ico 0xD7FF 0xE001)] false) ∧
    generateString (fun _ => 1)
      (.regExpList 1 1 [.regExpClass 1 1 (List.Ico 0xD7FF 0xE001)] false) =
      .ok [Char.ofNat 0xFFFD] ∧
    (Char.ofNat 0xFFFD).toNat ∉ List.Ico 0xD7FF 0xE001 := by
  have hrunes : [ClassItem.range (Char.ofNat 0xD7FF) (Char.ofNat 0xE000)].flatMap
      ClassItem.runes = List.Ico 0xD7FF 0xE001 := by
    rw [List.flatMap_cons, List.flatMap_nil, List.append_nil]
    rfl
  refine ⟨?_, ?_, ?_⟩
  · have h := (class_items_compile_and_generate
      [ClassItem.range (Char.ofNat 0xD7FF) (Char.ofNat 0xE000)] (by simp)
      (by
        intro it hit
        simp only [List.mem_singleton] at hit
        subst hit
        exact ⟨by decide, by decide, by decide, by decide, by decide⟩)
      (by decide)).1
    rw [hrunes] at h
    exact h
  · have hlen : 0 < (List.Ico 0xD7FF 0xE001).length := by
      rw [List.Ico.length]; decide
    rw [generateString_class_get _ _ hlen]
    have : (List.Ico 0xD7FF 0xE001).get
        ⟨(fun _ => 1) 2 % (List.Ico 0xD7FF 0xE001).length, Nat.mod_lt _ hlen⟩ = 0xD800 := by
      rw [List.get_eq_getElem]
      simp only [List.Ico, List.getElem_range', List.length_range']
    rw [this]
    rfl
  · intro h
    rw [List.Ico.mem] at h
    exact absurd h.2 (by decide)


theorem invertChars_mem (alphabet chars : List Nat) (ha : alphabet.Pairwise (fun a b => a < b))
    (hc : chars.Pairwise (fun a b => a ≤ b)) :
    ∀ x ∈ invertChars alphabet chars, x ∈ alphabet ∧ x ∉ chars := by
  induction alphabet generalizing chars with
  | nil => intro x hx; simp [invertChars] at hx
  | cons a as ih =>
    have has := (List.pairwise_cons.mp ha).2
    have hlt := (List.pairwise_cons.mp ha).1
    cases chars with
    | nil =>
      intro x hx
      rw [invertChars] at hx
      rcases List.mem_cons.mp hx with rfl | hx
      · exact ⟨List.mem_cons_self _ _, List.not_mem_nil _⟩
      · exact ⟨List.mem_cons_of_mem _ (ih [] has List.Pairwise.nil x hx).1, List.not_mem_nil _⟩
    | cons c cs =>
      have hcs := (List.pairwise_cons.mp hc).2
      have hle := (List.pairwise_cons.mp hc).1
      intro x hx
      rw [invertChars] at hx
      by_cases hac : a ≥ c
      · rw [if_pos hac] at hx
        obtain ⟨h1, h2⟩ := ih cs has hcs x hx
        refine ⟨List.mem_cons_of_mem _ h1, ?_⟩
        intro hmem
        rcases List.mem_cons.mp hmem with rfl | hmem
        · have := hlt x h1
          omega
        · exact h2 hmem
      · rw [if_neg hac] at hx
        rcases List.mem_cons.mp hx with rfl | hx
        · refine ⟨List.mem_cons_self _ _, ?_⟩
          intro hmem
          rcases List.mem_cons.mp hmem with rfl | hmem
          · exact hac (le_refl _)
          · have := hle x hmem
            omega
        · obtain ⟨h1, h2⟩ := ih (c :: cs) has hc x hx
          exact ⟨List.mem_cons_of_mem _ h1, h2⟩

theorem sortRunes_sorted (l : List Nat) : (sortRunes l).Pairwise (fun a b => a ≤ b) :=
  List.sorted_insertionSort (fun a b => a ≤ b) l

theorem mem_sortRunes (l : List Nat) (x : Nat) : x ∈ sortRunes l ↔ x ∈ l :=
  (List.perm_insertionSort (fun a b => a ≤ b) l).mem_iff

theorem possibleCharactersRunes_ascending :
    possibleCharactersRunes.Pairwise (fun a b => a < b) := by
  decide

theorem possibleCharactersRunes_valid : ∀ r ∈ possibleCharactersRunes, r.isValidChar := by
  decide

theorem inverted_mem (chars : List Nat) :
    ∀ x ∈ invertChars possibleCharactersRunes (sortRunes chars),
      x ∈ possibleCharactersRunes ∧ x ∉ chars := by
  intro x hx
  obtain ⟨h1, h2⟩ := invertChars_mem _ _ possibleCharactersRunes_ascending
    (sortRunes_sorted chars) x hx
  exact ⟨h1, fun h => h2 ((mem_sortRunes chars x).mpr h)⟩

theorem generateString_class_mem (draws : Nat → Nat) (cs : List Nat) (out : List Char)
    (h : generateString draws (.regExpList 1 1 [.regExpClass 1 1 cs] false) = .ok out) :
    ∃ r, r ∈ cs ∧ out = [runeString r] := by
  cases cs with
  | nil =>
    rw [generateString_of_fault _ _ _ (generate_list_once_error draws _ _ _
      (generateAll_cons_error draws _ _ _ _ (generate_empty_class draws _)))] at h
    exact Except.noConfusion h
  | cons c cs =>
    obtain ⟨r, hr, hg⟩ := generateString_class_once draws (c :: cs) (List.cons_ne_nil _ _)
    rw [hg] at h
    exact ⟨r, hr, (Except.ok.inj h).symm⟩

/-- C8. An inverted class `[^body]` with a non-empty body compiles to a class
whose every character belongs to the reference alphabet and is none of the
characters the body lists, singly or through a range; so is every generated
character. -/
theorem inverted_class_excludes_body (body : List Char) (hb : ']' ∉ body)
    (hne : explicitCharacters body 0 ≠ []) :
    ∃ cs, compile ('[' :: '^' :: body ++ [']']) =
        .ok (.regExpList 1 1 [.regExpClass 1 1 cs] false) ∧
      (∀ x ∈ cs, x ∈ possibleCharactersRunes ∧ x ∉ explicitCharacters body 0) ∧
      ∀ draws out,
        generateString draws (.regExpList 1 1 [.regExpClass 1 1 cs] false) = .ok out →
        ∀ ch ∈ out, ch.toNat ∈ possibleCharactersRunes ∧
          ch.toNat ∉ explicitCharacters body 0 := by
  refine ⟨_, compile_inverted_class body hb hne, inverted_mem _, ?_⟩
  intro draws out hout ch hch
  obtain ⟨r, hr, rfl⟩ := generateString_class_mem draws _ out hout
  have hmem := inverted_mem _ r hr
  rw [List.mem_singleton] at hch
  subst hch
  rw [runeString_valid r (possibleCharactersRunes_valid r hmem.1)]
  exact hmem

theorem inverted_class_excludes_body_witness :
    ']' ∉ "abc".toList ∧ explicitCharacters "abc".toList 0 ≠ [] ∧
    ∃ cs, compile "[^abc]".toList = .ok (.regExpList 1 1 [.regExpClass 1 1 cs] false) ∧
      (∀ x ∈ cs, x ∈ possibleCharactersRunes ∧ x ∉ explicitCharacters "abc".toList 0) ∧
      ∀ draws out,
        generateString draws (.regExpList 1 1 [.regExpClass 1 1 cs] false) = .ok out →
        ∀ ch ∈ out, ch.toNat ∈ possibleCharactersRunes ∧
          ch.toNat ∉ explicitCharacters "abc".toList 0 :=
  ⟨by decide, by decide, inverted_class_excludes_body "abc".toList (by decide) (by decide)⟩


/-! ## Quantifiers -/

theorem quantifierBody_nil (m0 m1 : Int) (index n : Nat) :
    quantifierBody [] m0 m1 index n = .ok (m0, m1, index, n) := by
  rw [quantifierBody]

theorem quantifierBody_close (tl : List Char) (m0 m1 : Int) (index n : Nat) :
    quantifierBody ('}' :: tl) m0 m1 index n = .ok (m0, m1, index, n) := by
  rw [quantifierBody, if_pos rfl]

theorem quantifierBody_comma (tl : List Char) (m0 m1 : Int) (n : Nat) :
    quantifierBody (',' :: tl) m0 m1 0 n = quantifierBody tl m0 m1 1 (n + 1) := by
  rw [quantifierBody, if_neg (by decide), if_pos rfl, if_neg (by decide)]

theorem quantifierBody_comma_extra (tl : List Char) (m0 m1 : Int) (index n : Nat) :
    quantifierBody (',' :: tl) m0 m1 (index + 1) n = .error .QuantifierSyntaxError := by
  rw [quantifierBody, if_neg (by decide), if_pos rfl, if_pos (by omega)]

theorem quantifierBody_digit_min (c : Char) (tl : List Char) (m0 m1 : Int) (n : Nat)
    (digit : Int) (h1 : c ≠ '}') (h2 : c ≠ ',') (h : atoiRune c = some digit) :
    quantifierBody (c :: tl) m0 m1 0 n =
      quantifierBody tl (wrapInt (wrapInt (10 * m0) + digit)) m1 0 (n + 1) := by
  rw [quantifierBody, if_neg h1, if_neg h2, h]
  simp only [if_true]

theorem quantifierBody_digit_max (c : Char) (tl : List Char) (m0 m1 : Int) (index n : Nat)
    (digit : Int) (h1 : c ≠ '}') (h2 : c ≠ ',') (h : atoiRune c = some digit) :
    quantifierBody (c :: tl) m0 m1 (index + 1) n =
      quantifierBody tl m0 (wrapInt (wrapInt (10 * m1) + digit)) (index + 1) (n + 1) := by
  rw [quantifierBody, if_neg h1, if_neg h2, h]
  simp only [Nat.add_one_ne_zero, if_false]

theorem quantifierBody_bad (c : Char) (tl : List Char) (m0 m1 : Int) (index n : Nat)
    (h1 : c ≠ '}') (h2 : c ≠ ',') (h : atoiRune c = none) :
    quantifierBody (c :: tl) m0 m1 index n = .error .QuantifierSyntaxError := by
  rw [quantifierBody, if_neg h1, if_neg h2, h]

theorem digitChar_facts (d : Nat) (h : d < 10) :
    atoiRune (Nat.digitChar d) = some (d : Int) ∧ Nat.digitChar d ≠ '}' ∧
      Nat.digitChar d ≠ ',' := by
  interval_cases d <;> decide

theorem digitsValue_nil (acc : Int) : digitsValue acc [] = acc := rfl

theorem digitsValue_cons (acc : Int) (d : Nat) (ds : List Nat) :
    digitsValue acc (d :: ds) = digitsValue (10 * acc + (d : Int)) ds := rfl

theorem digitsValue_append (acc : Int) (ds : List Nat) (d : Nat) :
    digitsValue acc (ds ++ [d]) = 10 * digitsValue acc ds + (d : Int) := by
  rw [digitsValue, List.foldl_append]
  rfl

theorem le_digitsValue (acc : Int) (ds : List Nat) (h : 0 ≤ acc) : acc ≤ digitsValue acc ds := by
  induction ds generalizing acc with
  | nil => exact le_refl _
  | cons d ds ih =>
    rw [digitsValue_cons]
    have := ih (10 * acc + (d : Int)) (by omega)
    omega

theorem quantifierBody_digits_min (ds : List Nat) (hds : ∀ d ∈ ds, d < 10) (rest : List Char)
    (m0 m1 : Int) (n : Nat) (h0 : 0 ≤ m0) (hv : digitsValue m0 ds < 2 ^ 63) :
    quantifierBody (ds.map Nat.digitChar ++ rest) m0 m1 0 n =
      quantifierBody rest (digitsValue m0 ds) m1 0 (n + ds.length) := by
  induction ds generalizing m0 n with
  | nil => rfl
  | cons d ds ih =>
    obtain ⟨ha, hb, hc⟩ := digitChar_facts d (hds d (List.mem_cons_self _ _))
    rw [digitsValue_cons] at hv
    have hle := le_digitsValue (10 * m0 + (d : Int)) ds (by omega)
    have e1 : wrapInt (10 * m0) = 10 * m0 := wrapInt_eq_self (by omega) (by omega)
    have e2 : wrapInt (10 * m0 + (d : Int)) = 10 * m0 + (d : Int) :=
      wrapInt_eq_self (by omega) (by omega)
    rw [List.map_cons, List.cons_append, quantifierBody_digit_min _ _ _ _ _ _ hb hc ha, e1, e2,
      ih (fun x hx => hds x (List.mem_cons_of_mem _ hx)) _ _ (by omega) hv, digitsValue_cons,
      List.length_cons]
    congr 1
    omega

theorem quantifierBody_digits_max (ds : List Nat) (hds : ∀ d ∈ ds, d < 10) (rest : List Char)
    (m0 m1 : Int) (index n : Nat) (h0 : 0 ≤ m1) (hv : digitsValue m1 ds < 2 ^ 63) :
    quantifierBody (ds.map Nat.digitChar ++ rest) m0 m1 (index + 1) n =
      quantifierBody rest m0 (digitsValue m1 ds) (index + 1) (n + ds.length) := by
  induction ds generalizing m1 n with
  | nil => rfl
  | cons d ds ih =>
    obtain ⟨ha, hb, hc⟩ := digitChar_facts d (hds d (List.mem_cons_self _ _))
    rw [digitsValue_cons] at hv
    have hle := le_digitsValue (10 * m1 + (d : Int)) ds (by omega)
    have e1 : wrapInt (10 * m1) = 10 * m1 := wrapInt_eq_self (by omega) (by omega)
    have e2 : wrapInt (10 * m1 + (d : Int)) = 10 * m1 + (d : Int) :=
      wrapInt_eq_self (by omega) (by omega)
    rw [List.map_cons, List.cons_append, quantifierBody_digit_max _ _ _ _ _ _ _ hb hc ha, e1, e2,
      ih (fun x hx => hds x (List.mem_cons_of_mem _ hx)) _ _ (by omega) hv, digitsValue_cons,
      List.length_cons]
    congr 1
    omega

theorem toDigitsCore_digits (fuel n : Nat) (acc : List Char) (h : n < fuel) :
    ∃ ds : List Nat, Nat.toDigitsCore 10 fuel n acc = ds.map Nat.digitChar ++ acc ∧
      (∀ d ∈ ds, d < 10) ∧ digitsValue 0 ds = (n : Int) := by
  induction fuel generalizing n acc with
  | zero => exact absurd h (Nat.not_lt_zero _)
  | succ fuel ih =>
    rw [Nat.toDigitsCore]
    by_cases hq : n / 10 = 0
    · refine ⟨[n % 10], ?_, ?_, ?_⟩
      · simp [hq]
      · intro d hd
        rw [List.mem_singleton] at hd
        omega
      · rw [digitsValue_cons, digitsValue_nil]
        omega
    · obtain ⟨ds, h1, h2, h3⟩ := ih (n / 10) (Nat.digitChar (n % 10) :: acc) (by omega)
      refine ⟨ds ++ [n % 10], ?_, ?_, ?_⟩
      · simp [hq, h1]
      · intro d hd
        rcases List.mem_append.mp hd with hd | hd
        · exact h2 d hd
        · rw [List.mem_singleton] at hd
          omega
      · rw [digitsValue_append, h3]
        omega

theorem decimal_digits (n : Nat) :
    ∃ ds : List Nat, decimal n = ds.map Nat.digitChar ∧ (∀ d ∈ ds, d < 10) ∧
      digitsValue 0 ds = (n : Int) := by
  obtain ⟨ds, h1, h2, h3⟩ := toDigitsCore_digits (n + 1) n [] (Nat.lt_succ_self n)
  exact ⟨ds, by rw [decimal, Nat.toDigits, h1, List.append_nil], h2, h3⟩


theorem setLastMinMax_append (min max : Int) (init : List RegExp) (last : RegExp) :
    setLastMinMax min max (init ++ [last]) =
      .ok (init ++ [last.setMinMaxNumber min max]) := by
  simp [setLastMinMax]

theorem setLastMinMax_nil (min max : Int) :
    setLastMinMax min max [] = .error .IndexOutOfRange := rfl

theorem compileLoop_braces (body rest : List Char) (rel : Rel) (stack : List Rel)
    (m0 m1 : Int) (index : Nat) (min max : Int) (init : List RegExp) (last : RegExp)
    (hq : quantifierBody (body ++ '}' :: rest) 0 0 0 0 = .ok (m0, m1, index, body.length))
    (hb : quantifierBound m0 m1 index = .ok (min, max)) (hl : rel.list = init ++ [last]) :
    compileLoop ('{' :: body ++ '}' :: rest) 0 rel stack =
      compileLoop rest 0
        { rel with list := init ++ [last.setMinMaxNumber min max] } stack := by
  have hskip := compileLoop_skip (body ++ ['}']) rest
    { rel with list := init ++ [last.setMinMaxNumber min max] } stack
  simp only [List.append_assoc, List.singleton_append, List.length_append,
    List.length_singleton] at hskip
  have hstep : compileStep '{' (body ++ '}' :: rest) rel stack =
      .ok (body.length + 1,
        { rel with list := init ++ [last.setMinMaxNumber min max] }, stack) := by
    simp only [compileStep, Char.reduceEq, if_false, if_true]
    rw [hq]
    simp only [hb, hl, setLastMinMax_append]
  rw [List.cons_append, compileLoop, hstep]
  exact hskip

theorem compileLoop_braces_error (body rest : List Char) (rel : Rel) (stack : List Rel)
    (e : CompileError) (hq : quantifierBody (body ++ rest) 0 0 0 0 = .error e) :
    compileLoop ('{' :: body ++ rest) 0 rel stack = .error e := by
  have hstep : compileStep '{' (body ++ rest) rel stack = .error e := by
    simp only [compileStep, Char.reduceEq, if_false, if_true]
    rw [hq]
  rw [List.cons_append, compileLoop, hstep]

theorem compileLoop_braces_range_error (body rest : List Char) (rel : Rel) (stack : List Rel)
    (m0 m1 : Int) (index n : Nat) (e : CompileError)
    (hq : quantifierBody (body ++ rest) 0 0 0 0 = .ok (m0, m1, index, n))
    (hb : quantifierBound m0 m1 index = .error e) :
    compileLoop ('{' :: body ++ rest) 0 rel stack = .error e := by
  have hstep : compileStep '{' (body ++ rest) rel stack = .error e := by
    simp only [compileStep, Char.reduceEq, if_false, if_true]
    rw [hq]
    simp only [hb]
  rw [List.cons_append, compileLoop, hstep]

theorem quantifierBody_pair (m n : Nat) (rest : List Char) (hm : m < 2 ^ 63)
    (hn : n < 2 ^ 63) :
    quantifierBody ((decimal m ++ ',' :: decimal n) ++ '}' :: rest) 0 0 0 0 =
      .ok ((m : Int), (n : Int), 1, (decimal m ++ ',' :: decimal n).length) := by
  obtain ⟨dm, hdm, hdm1, hdm2⟩ := decimal_digits m
  obtain ⟨dn, hdn, hdn1, hdn2⟩ := decimal_digits n
  have hm' : digitsValue 0 dm < 2 ^ 63 := by rw [hdm2]; exact_mod_cast hm
  have hn' : digitsValue 0 dn < 2 ^ 63 := by rw [hdn2]; exact_mod_cast hn
  rw [hdm, hdn, List.append_assoc, quantifierBody_digits_min dm hdm1 _ 0 0 0 (le_refl 0) hm',
    List.cons_append, quantifierBody_comma,
    quantifierBody_digits_max dn hdn1 _ _ 0 0 _ (le_refl 0) hn', quantifierBody_close, hdm2,
    hdn2]
  simp only [List.length_append, List.length_cons, List.length_map, Nat.zero_add]
  congr 4
  omega

theorem quantifierBody_single (m : Nat) (rest : List Char) (hm : m < 2 ^ 63) :
    quantifierBody (decimal m ++ '}' :: rest) 0 0 0 0 =
      .ok ((m : Int), 0, 0, (decimal m).length) := by
  obtain ⟨dm, hdm, hdm1, hdm2⟩ := decimal_digits m
  have hm' : digitsValue 0 dm < 2 ^ 63 := by rw [hdm2]; exact_mod_cast hm
  rw [hdm, quantifierBody_digits_min dm hdm1 _ 0 0 0 (le_refl 0) hm', quantifierBody_close,
    hdm2]
  simp only [List.length_map, Nat.zero_add]

theorem quantifierBound_pair (m n : Int) (hn : n ≠ 0) (hmn : m ≤ n) :
    quantifierBound m n 1 = .ok (m, n) := by
  simp [quantifierBound, hn, not_lt.mpr hmn]

theorem quantifierBound_pair_error (m n : Int) (hn : n ≠ 0) (hmn : n < m) :
    quantifierBound m n 1 = .error .QuantifierRangeError := by
  simp [quantifierBound, hn, hmn]

theorem quantifierBound_single (m x : Int) : quantifierBound m x 0 = .ok (m, m) := by
  simp [quantifierBound]

theorem compile_quantified_literal (c : Char) (body : List Char) (m0 m1 : Int) (index : Nat)
    (min max : Int) (hc : isOrdinary c = true)
    (hq : quantifierBody (body ++ '}' :: []) 0 0 0 0 = .ok (m0, m1, index, body.length))
    (hb : quantifierBound m0 m1 index = .ok (min, max)) :
    compile (c :: '{' :: body ++ ['}']) =
      .ok (.regExpList 1 1 [.regExpClass min max [c.toNat]] false) := by
  have hl : compileLoop (c :: '{' :: body ++ ['}']) 0 Rel.new [] =
      .ok ({ list := [.regExpClass min max [c.toNat]], parentAlternative := none }, []) := by
    rw [List.cons_append, compileLoop_ordinary c _ _ _ hc,
      compileLoop_braces body [] _ [] m0 m1 index min max [] (literal c) hq hb rfl,
      compileLoop_nil]
    rfl
  rw [compile_of_loop _ _ _ hl]
  exact finish_plain _


theorem generateString_single_class (draws : Nat → Nat) (m n : Int) (r : Nat)
    (h0 : 0 ≤ m) (h1 : m ≤ n) (h2 : n - m + 1 < 2 ^ 63) (h3 : n < 2 ^ 63) :
    generateString draws (.regExpList 1 1 [.regExpClass m n [r]] false) =
      .ok (List.replicate (m + ((draws 1 % (n - m + 1).toNat : Nat) : Int)).toNat
        (runeString r)) := by
  have hg := generate_single_class draws m n r (GenState.init.claim.drawnBy 1) h0 h1 h2 h3
  have hp : (GenState.init.claim.drawnBy 1).pos = 1 := rfl
  rw [hp] at hg
  exact generateString_of_generate _ _ _ _
    (generate_list_once draws _ _ _ _ (generateAll_single_ok draws _ _ _ _ hg))

/-- The outputs of a literal under a bound `(m, n)` of natural numbers with
`m ≤ n` inside the range of `int`: the character repeated `k` times for some
`m ≤ k ≤ n`, every such `k` occurring. -/
theorem generateString_bounded_literal (draws : Nat → Nat) (c : Char) (m n : Nat)
    (hmn : m ≤ n) (hmax : n < 2 ^ 63) (hspan : n - m + 1 < 2 ^ 63) :
    generateString draws (.regExpList 1 1 [.regExpClass (m : Int) (n : Int) [c.toNat]] false) =
      .ok (List.replicate (m + draws 1 % (n - m + 1)) c) := by
  have h := generateString_single_class draws (m : Int) (n : Int) c.toNat (by omega)
    (by omega) (by omega) (by omega)
  have e1 : ((n : Int) - (m : Int) + 1).toNat = n - m + 1 := by omega
  have e2 : ((m : Int) + ((draws 1 % (n - m + 1) : Nat) : Int)).toNat =
      m + draws 1 % (n - m + 1) := by omega
  rw [e1, e2, runeString_toNat] at h
  exact h

/-- C9 (as amended). For every ordinary character `c` and all natural numbers
`m ≤ n` with `n ≥ 1`, `n` below 2^63 and `n - m + 1` below 2^63, the pattern
`c{m,n}` compiles and every generated output is `c` repeated `k` times for some
`m ≤ k ≤ n`. -/
theorem bounded_quantifier_repeats (c : Char) (m n : Nat) (hc : isOrdinary c = true)
    (hmn : m ≤ n) (hn : 1 ≤ n) (hmax : n < 2 ^ 63) (hspan : n - m + 1 < 2 ^ 63) :
    ∃ root, compile (c :: '{' :: (decimal m ++ ',' :: decimal n) ++ ['}']) = .ok root ∧
      ∀ draws, ∃ k, m ≤ k ∧ k ≤ n ∧ generateString draws root = .ok (List.replicate k c) := by
  have hm : m < 2 ^ 63 := by omega
  refine ⟨_, compile_quantified_literal c _ _ _ _ _ _ hc (quantifierBody_pair m n [] hm hmax)
    (quantifierBound_pair (m : Int) (n : Int) (by omega) (by omega)), fun draws => ?_⟩
  have hlt : draws 1 % (n - m + 1) < n - m + 1 := Nat.mod_lt _ (by omega)
  exact ⟨m + draws 1 % (n - m + 1), by omega, by omega,
    generateString_bounded_literal draws c m n hmn hmax hspan⟩

theorem bounded_quantifier_repeats_witness :
    isOrdinary 'a' = true ∧ 2 ≤ 4 ∧ 1 ≤ 4 ∧
    ∃ root, compile ('a' :: '{' :: (decimal 2 ++ ',' :: decimal 4) ++ ['}']) = .ok root ∧
      ∀ draws, ∃ k, 2 ≤ k ∧ k ≤ 4 ∧
        generateString draws root = .ok (List.replicate k 'a') :=
  ⟨by decide, by decide, by decide,
    bounded_quantifier_repeats 'a' 2 4 (by decide) (by decide) (by decide) (by norm_num)
      (by norm_num)⟩

theorem generate_wrapped_bound (draws : Nat → Nat) (r : Nat) (s : GenState) :
    generate draws (.regExpClass (-9223372036854775808) (-9223372036854775808) [r]) s =
      .ok ([], s.drawnBy 1) := by
  have e1 : wrapInt (wrapInt ((-9223372036854775808 : Int) - (-9223372036854775808)) + 1) = 1 := by
    decide
  have e2 : wrapInt ((-9223372036854775808 : Int) + 0) = -9223372036854775808 := by decide
  have e3 : (-9223372036854775808 : Int).toNat = 0 := by decide
  rw [generate_regExpClass, drawSize, e1, intn_one, andThen_ok, andThen_ok, e2, e3,
    repeatGen_zero]

set_option maxRecDepth 100000 in
theorem compile_overflowing_quantifier :
    compile ('a' :: '{' :: (decimal (2 ^ 63) ++ ',' :: decimal (2 ^ 63)) ++ ['}']) =
      .ok (.regExpList 1 1
        [.regExpClass (-9223372036854775808) (-9223372036854775808) [97]] false) := by
  rfl

/-- C9 (counterexample). With `m = n = 2^63` the quantifier of
`a{9223372036854775808,9223372036854775808}` is read into an `int` that wraps
to -2^63; the pattern compiles and every output is the empty string, not `a`
repeated 2^63 times. -/
theorem bounded_quantifier_overflow :
    compile ('a' :: '{' :: (decimal (2 ^ 63) ++ ',' :: decimal (2 ^ 63)) ++ ['}']) =
      .ok (.regExpList 1 1
        [.regExpClass (-9223372036854775808) (-9223372036854775808) [97]] false) ∧
    (∀ draws, generateString draws (.regExpList 1 1
        [.regExpClass (-9223372036854775808) (-9223372036854775808) [97]] false) = .ok []) ∧
    ¬ ∃ k, 2 ^ 63 ≤ k ∧ k ≤ 2 ^ 63 ∧
      generateString (fun _ => 0) (.regExpList 1 1
        [.regExpClass (-9223372036854775808) (-9223372036854775808) [97]] false) =
        .ok (List.replicate k 'a') := by
  have hgen : ∀ draws, generateString draws (.regExpList 1 1
      [.regExpClass (-9223372036854775808) (-9223372036854775808) [97]] false) = .ok [] :=
    fun draws => generateString_of_generate _ _ _ _
      (generate_list_once draws _ _ _ _
        (generateAll_single_ok draws _ _ _ _ (generate_wrapped_bound draws 97 _)))
  refine ⟨compile_overflowing_quantifier, hgen, ?_⟩
  rintro ⟨k, hk, -, h⟩
  rw [hgen] at h
  have h1 := Except.ok.inj h
  have h2 : (List.replicate k 'a').length = 0 := by rw [← h1]; rfl
  rw [List.length_replicate] at h2
  omega


/-! ## Rejected and accepted quantifiers and classes -/

/-- C11. The quantifier `{3,0}` is not rejected: a maximum that reads 0 is
taken for a missing maximum (line 302), so `a{3,0}` compiles with the bound
(3,13).  A descending pair with a non-zero maximum, as in `a{5,2}`, is
rejected. -/
theorem zero_maximum_not_rejected :
    compile "a{3,0}".toList = .ok (.regExpList 1 1 [.regExpClass 3 13 [97]] false) ∧
    compile "a{5,2}".toList = .error .QuantifierRangeError :=
  ⟨rfl, rfl⟩

/-- C12 (counterexample). The pattern `[z-a]` does not compile: the descending
range leaves the class empty, which line 252 rejects. -/
theorem descending_range_alone_rejected :
    compile "[z-a]".toList = .error .EmptyClass := rfl

theorem rangeRunes_descending (lo hi : Nat) (h : hi < lo) : rangeRunes lo hi = [] := by
  have : hi + 1 - lo = 0 := by omega
  rw [rangeRunes, this]
  rfl

theorem compileLoop_empty_class (c1 : Char) (b1 rest : List Char) (rel : Rel)
    (stack : List Rel) (hb : ']' ∉ c1 :: b1) (he : explicitCharacters (c1 :: b1) 0 = [])
    (hfirst : c1 ≠ '^') :
    compileLoop ('[' :: (c1 :: b1) ++ ']' :: rest) 0 rel stack = .error .EmptyClass := by
  rw [List.cons_append, compileLoop, compileStep_empty_class c1 b1 rest rel stack hb he hfirst]

/-- C12 (as amended). A descending range `x-y` inside a class is no error in
itself and contributes zero characters: followed by a character `c` the class
`[x-yc]` compiles to the class of the single character `c`.  The class
`[x-y]`, which is left empty, is rejected with EmptyClass. -/
theorem descending_range_contributes_nothing (x y c : Char) (hx : x ≠ ']') (hx1 : x ≠ '^')
    (hy : y ≠ ']') (hc : c ≠ ']') (hxy : y < x) :
    compile ['[', x, '-', y, c, ']'] =
      .ok (.regExpList 1 1 [.regExpClass 1 1 [c.toNat]] false) ∧
    compile ['[', x, '-', y, ']'] = .error .EmptyClass := by
  have hlt : y.toNat < x.toNat := hxy
  have hr : ∀ tl, rangeEnd ('-' :: y :: tl) = some y := fun tl => by simp [rangeEnd, hy]
  have he : explicitCharacters [x, '-', y] 0 = [] := by
    rw [explicitCharacters_range x y _ (hr []), explicitCharacters_skip,
      explicitCharacters_skip, explicitCharacters_nil, rangeRunes_descending _ _ hlt]
    rfl
  have hc1 : explicitCharacters [x, '-', y, c] 0 = [c.toNat] := by
    rw [explicitCharacters_range x y _ (hr [c]), explicitCharacters_skip,
      explicitCharacters_skip, explicitCharacters_single c [] rfl, explicitCharacters_nil,
      rangeRunes_descending _ _ hlt]
    rfl
  constructor
  · have hb : ']' ∉ [x, '-', y, c] := by
      simp only [List.mem_cons, List.mem_singleton, List.not_mem_nil, or_false, not_or]
      exact ⟨fun h => hx h.symm, by decide, fun h => hy h.symm, fun h => hc h.symm⟩
    have h := compile_class [x, '-', y, c] hb (by rw [hc1]; exact List.cons_ne_nil _ _)
      (by simp only [List.head?_cons, ne_eq, Option.some.injEq]; exact hx1)
    rw [hc1] at h
    exact h
  · have hb : ']' ∉ [x, '-', y] := by
      simp only [List.mem_cons, List.mem_singleton, List.not_mem_nil, or_false, not_or]
      exact ⟨fun h => hx h.symm, by decide, fun h => hy h.symm⟩
    exact compile_of_loop_error _ _
      (compileLoop_empty_class x ['-', y] [] Rel.new [] hb he hx1)

theorem descending_range_contributes_nothing_witness :
    'a' < 'z' ∧
    compile "[z-ab]".toList = .ok (.regExpList 1 1 [.regExpClass 1 1 [98]] false) ∧
    compile "[z-a]".toList = .error .EmptyClass :=
  ⟨by decide, descending_range_contributes_nothing 'z' 'a' 'b' (by decide) (by decide)
    (by decide) (by decide) (by decide)⟩


theorem compile_forward_reference (d : Nat) (w : List Char) (hd : d < 10)
    (h : ∀ c ∈ w, isOrdinary c = true) :
    compile ('\\' :: Nat.digitChar d :: '(' :: w ++ [')']) = .ok (.regExpList 1 1
      [.regExpBackReference 1 1 (d : Int), .regExpList 1 1 (w.map literal) false] false) := by
  have hl : compileLoop ('\\' :: Nat.digitChar d :: '(' :: w ++ [')']) 0 Rel.new [] =
      .ok ({ list := [.regExpBackReference 1 1 (d : Int),
                      .regExpList 1 1 (w.map literal) false],
             parentAlternative := none }, []) := by
    rw [List.cons_append, List.cons_append, List.cons_append,
      compileLoop_backreference _ _ _ _ _ (digitChar_facts d hd).1, compileLoop_open,
      compileLoop_literals w _ _ _ h, compileLoop_close _ _ _ _ rfl, compileLoop_nil]
    rfl
  rw [compile_of_loop _ _ _ hl]
  exact finish_plain _

theorem generate_forward_reference (draws : Nat → Nat) (index : Int) (w : List Char) :
    generateString draws (.regExpList 1 1
      [.regExpBackReference 1 1 index, .regExpList 1 1 (w.map literal) false] false) =
      .ok w := by
  have hb := generate_regExpBackReference_absent draws 1 1 index
    (GenState.init.claim.drawnBy 1) rfl
  have hg := generate_list_once draws (w.map literal) (GenState.init.claim.drawnBy 1) _ w
    (generateAll_literals draws w _)
  have hall := generateAll_cons_ok draws _ _ _ _ _ _ _ hb
    (generateAll_single_ok draws _ _ _ _ hg)
  rw [List.nil_append] at hall
  exact generateString_of_generate _ _ _ _ (generate_list_once draws _ _ _ _ hall)

/-- C14. A back reference whose index is not in the capture table when it is
generated contributes the empty string, whatever its bound, and the state is
left as it was; for every digit `d` and every word `w` of ordinary characters
the pattern `\d(w)` compiles and always generates exactly `w`. -/
theorem forward_reference_is_empty (d : Nat) (w : List Char) (hd : d < 10)
    (h : ∀ c ∈ w, isOrdinary c = true) :
    (∀ draws min max index s, s.subpatterns index = none →
      generate draws (.regExpBackReference min max index) s = .ok ([], s)) ∧
    ∃ root, compile ('\\' :: Nat.digitChar d :: '(' :: w ++ [')']) = .ok root ∧
      ∀ draws, generateString draws root = .ok w :=
  ⟨fun draws min max index s hs => generate_regExpBackReference_absent draws min max index s hs,
    _, compile_forward_reference d w hd h, fun draws => generate_forward_reference draws _ w⟩

theorem forward_reference_is_empty_witness :
    1 < 10 ∧ (∀ c ∈ "ab".toList, isOrdinary c = true) ∧
    (∀ draws min max index s, s.subpatterns index = none →
      generate draws (.regExpBackReference min max index) s = .ok ([], s)) ∧
    ∃ root, compile "\\1(ab)".toList = .ok root ∧
      ∀ draws, generateString draws root = .ok "ab".toList :=
  ⟨by decide, by decide, forward_reference_is_empty 1 "ab".toList (by decide) (by decide)⟩

/-- The pattern that puts a backslash before each character of `w`. -/
theorem compileLoop_escaped (w rest : List Char) (rel : Rel) (stack : List Rel)
    (h : ∀ c ∈ w, atoiRune c = none) :
    compileLoop (w.flatMap (fun c => ['\\', c]) ++ rest) 0 rel stack =
      compileLoop rest 0 { rel with list := rel.list ++ w.map literal } stack := by
  induction w generalizing rel with
  | nil => simp
  | cons c w ih =>
    rw [List.flatMap_cons, List.append_assoc, List.cons_append, List.cons_append,
      List.nil_append, compileLoop_escape c _ _ _ (h c (List.mem_cons_self _ _)),
      ih _ (fun x hx => h x (List.mem_cons_of_mem _ hx))]
    simp

theorem atoiRune_none (c : Char) (h : ¬ (48 ≤ c.toNat ∧ c.toNat ≤ 57)) : atoiRune c = none := by
  rw [atoiRune, if_neg h]

/-- C16. For every word `w` containing no ASCII digit (it may contain
metacharacters), the pattern that puts a backslash before each character of
`w` compiles and always generates exactly `w`. -/
theorem escaped_pattern_generates_word (w : List Char)
    (h : ∀ c ∈ w, ¬ (48 ≤ c.toNat ∧ c.toNat ≤ 57)) :
    ∃ root, compile (w.flatMap (fun c => ['\\', c])) = .ok root ∧
      ∀ draws, generateString draws root = .ok w := by
  have hl := compileLoop_escaped w [] Rel.new [] (fun c hc => atoiRune_none c (h c hc))
  rw [List.append_nil, compileLoop_nil] at hl
  refine ⟨.regExpList 1 1 (w.map literal) false, ?_, fun draws => generate_literals_root draws w⟩
  rw [compile_of_loop _ _ _ hl]
  exact finish_plain _

theorem escaped_pattern_generates_word_witness :
    (∀ c ∈ "(a|b)*\\".toList, ¬ (48 ≤ c.toNat ∧ c.toNat ≤ 57)) ∧
    ∃ root, compile "\\(\\a\\|\\b\\)\\*\\\\".toList = .ok root ∧
      ∀ draws, generateString draws root = .ok "(a|b)*\\".toList :=
  ⟨by decide, escaped_pattern_generates_word "(a|b)*\\".toList (by decide)⟩

theorem quantifierBody_malformed (b rest : List Char) (hb : '}' ∉ b) (index : Nat)
    (hi : index ≤ 1)
    (hbad : (∃ ch ∈ b, atoiRune ch = none ∧ ch ≠ ',') ∨ 2 ≤ index + b.count ',')
    (m0 m1 : Int) (n : Nat) :
    quantifierBody (b ++ rest) m0 m1 index n = .error .QuantifierSyntaxError := by
  induction b generalizing index m0 m1 n with
  | nil =>
    rcases hbad with ⟨ch, hch, -⟩ | hcount
    · exact absurd hch (List.not_mem_nil _)
    · simp at hcount; omega
  | cons c tl ih =>
    have hc : c ≠ '}' := fun h => hb (h ▸ List.mem_cons_self _ _)
    have htl : '}' ∉ tl := fun h => hb (List.mem_cons_of_mem _ h)
    rw [List.cons_append]
    by_cases hcomma : c = ','
    · subst hcomma
      cases index with
      | succ i => exact quantifierBody_comma_extra _ _ _ _ _
      | zero =>
        rw [quantifierBody_comma]
        refine ih htl 1 (le_refl 1) ?_ _ _ _
        rcases hbad with ⟨ch, hch, h1, h2⟩ | hcount
        · rcases List.mem_cons.mp hch with rfl | hch
          · exact absurd rfl h2
          · exact Or.inl ⟨ch, hch, h1, h2⟩
        · right
          rw [List.count_cons_self] at hcount
          omega
    · cases hd : atoiRune c with
      | none => exact quantifierBody_bad c _ _ _ _ _ hc hcomma hd
      | some digit =>
        have hbad' : (∃ ch ∈ tl, atoiRune ch = none ∧ ch ≠ ',') ∨ 2 ≤ index + tl.count ',' := by
          rcases hbad with ⟨ch, hch, h1, h2⟩ | hcount
          · rcases List.mem_cons.mp hch with rfl | hch
            · rw [hd] at h1; exact Option.noConfusion h1
            · exact Or.inl ⟨ch, hch, h1, h2⟩
          · right
            rw [List.count_cons_of_ne (Ne.symm hcomma)] at hcount
            exact hcount
        cases index with
        | zero =>
          rw [quantifierBody_digit_min c _ _ _ _ digit hc hcomma hd]
          exact ih htl 0 hi hbad' _ _ _
        | succ i =>
          rw [quantifierBody_digit_max c _ _ _ _ _ digit hc hcomma hd]
          exact ih htl (i + 1) hi hbad' _ _ _

/-- C17. For every quantifier body `b` that contains no `}` and that contains
either a character that is neither an ASCII digit nor `,`, or more than one
`,`, compiling `c{b}` followed by anything fails with QuantifierSyntaxError,
for every ordinary character `c`. -/
theorem malformed_quantifier_rejected (c : Char) (b rest : List Char)
    (hc : isOrdinary c = true) (hb : '}' ∉ b)
    (hbad : (∃ ch ∈ b, ¬ (48 ≤ ch.toNat ∧ ch.toNat ≤ 57) ∧ ch ≠ ',') ∨ 2 ≤ b.count ',') :
    compile (c :: '{' :: b ++ '}' :: rest) = .error .QuantifierSyntaxError := by
  have hq := quantifierBody_malformed b ('}' :: rest) hb 0 (Nat.zero_le 1)
    (by
      rcases hbad with ⟨ch, hch, h1, h2⟩ | hcount
      · exact Or.inl ⟨ch, hch, atoiRune_none ch h1, h2⟩
      · exact Or.inr (by omega)) 0 0 0
  apply compile_of_loop_error
  rw [List.cons_append, compileLoop_ordinary c _ _ _ hc]
  exact compileLoop_braces_error b ('}' :: rest) _ _ _ hq

theorem malformed_quantifier_rejected_witness :
    isOrdinary 'a' = true ∧ '}' ∉ "1,2,3".toList ∧
    compile "a{1,2,3}b".toList = .error .QuantifierSyntaxError :=
  ⟨by decide, by decide,
    malformed_quantifier_rejected 'a' "1,2,3".toList "b".toList (by decide) (by decide)
      (Or.inr (by decide))⟩


/-! ## Capture indices follow the order of generation -/

theorem andThen_eq_ok {ε α β : Type} (x : Except ε α) (f : α → Except ε β) (b : β)
    (h : andThen x f = .ok b) : ∃ a, x = .ok a ∧ f a = .ok b := by
  cases x with
  | error e =>
    rw [andThen_error] at h
    exact Except.noConfusion h
  | ok a =>
    rw [andThen_ok] at h
    exact ⟨a, rfl, h⟩

theorem claim_currentIndex (s : GenState) :
    s.claim.currentIndex = wrapInt (s.currentIndex + 1) := id rfl

theorem intn_state (draws : Nat → Nat) (n : Int) (s : GenState) (r : Int × GenState)
    (h : intn draws n s = .ok r) : r.2 = s.drawnBy 1 := by
  by_cases hn : n ≤ 0
  · rw [intn_nonpos draws n s hn] at h
    exact Except.noConfusion h
  · rw [intn_pos draws n s (not_le.mp hn)] at h
    rw [← Except.ok.inj h]

theorem drawSize_state (draws : Nat → Nat) (min max : Int) (s : GenState)
    (r : Int × GenState) (h : drawSize draws min max s = .ok r) : r.2 = s.drawnBy 1 := by
  rw [drawSize] at h
  obtain ⟨a, ha, hf⟩ := andThen_eq_ok _ _ _ h
  rw [← Except.ok.inj hf]
  exact intn_state draws _ s a ha

/-- A loop whose body leaves `currentIndex` and `subpatterns` as they were
leaves them as they were. -/
theorem repeatGen_keeps (body : GenState → Except Fault (List Char × GenState))
    (hbody : ∀ u r, body u = .ok r →
      r.2.currentIndex = u.currentIndex ∧ r.2.subpatterns = u.subpatterns) :
    ∀ (n : Nat) (acc : List Char) (s : GenState) (r : List Char × GenState),
      repeatGen n body acc s = .ok r →
      r.2.currentIndex = s.currentIndex ∧ r.2.subpatterns = s.subpatterns
  | 0, acc, s, r, h => by
    rw [repeatGen_zero] at h
    rw [← Except.ok.inj h]
    exact ⟨rfl, rfl⟩
  | n + 1, acc, s, r, h => by
    rw [repeatGen_succ] at h
    obtain ⟨a, ha, hf⟩ := andThen_eq_ok _ _ _ h
    obtain ⟨h1, h2⟩ := hbody s a ha
    obtain ⟨h3, h4⟩ := repeatGen_keeps body hbody n _ _ r hf
    exact ⟨h3.trans h1, h4.trans h2⟩

theorem pickCharacter_state (draws : Nat → Nat) (cs : List Nat) (s : GenState)
    (r : List Char × GenState) (h : pickCharacter draws cs s = .ok r) : r.2 = s.drawnBy 1 := by
  rw [pickCharacter] at h
  obtain ⟨a, ha, hf⟩ := andThen_eq_ok _ _ _ h
  obtain ⟨c, -, hc⟩ := andThen_eq_ok _ _ _ hf
  rw [← Except.ok.inj hc]
  exact intn_state draws _ s a ha

/-- A list that is no branch takes the value of `currentIndex` at the moment it
starts, before any of its parts is generated: the parts run from a state whose
counter is one more, and the text is stored under the value taken. -/
theorem list_claims_at_start (draws : Nat → Nat) (min max : Int) (list : List RegExp)
    (s : GenState) (out : List Char) (s1 : GenState)
    (h : generate draws (.regExpList min max list false) s = .ok (out, s1)) :
    ∃ size t q, drawSize draws min max s.claim = .ok (size, t) ∧
      t.currentIndex = wrapInt (s.currentIndex + 1) ∧
      repeatGen size.toNat (fun u => generateAll draws list u) [] t = .ok (out, q) ∧
      s1 = q.store s.currentIndex out ∧ s1.subpatterns s.currentIndex = some out := by
  rw [generate_regExpList_outer] at h
  obtain ⟨r, hr, h2⟩ := andThen_eq_ok _ _ _ h
  obtain ⟨q, hq, h3⟩ := andThen_eq_ok _ _ _ h2
  have h4 := Except.ok.inj h3
  have ho : q.1 = out := congrArg Prod.fst h4
  have hs : q.2.store s.currentIndex q.1 = s1 := congrArg Prod.snd h4
  have ht : r.2.currentIndex = wrapInt (s.currentIndex + 1) := by
    rw [drawSize_state draws min max _ r hr, drawnBy_currentIndex, claim_currentIndex]
  refine ⟨r.1, r.2, q.2, hr, ht, ?_, ?_, ?_⟩
  · rw [← ho]
    exact hq
  · rw [← hs, ho]
  · rw [← hs, ho]
    exact store_subpatterns_same _ _ _

/-- An alternative takes the value of `currentIndex` at the moment it starts,
before a branch is drawn and generated. -/
theorem alternative_claims_at_start (draws : Nat → Nat) (min max : Int) (list : List RegExp)
    (s : GenState) (out : List Char) (s1 : GenState)
    (h : generate draws (.regExpAlternative min max list) s = .ok (out, s1)) :
    ∃ size t q, drawSize draws min max s.claim = .ok (size, t) ∧
      t.currentIndex = wrapInt (s.currentIndex + 1) ∧
      repeatGen size.toNat
        (fun u => andThen (intn draws (list.length : Int) u) fun k =>
          generateNth draws list k.1.toNat k.2) [] t = .ok (out, q) ∧
      s1 = q.store s.currentIndex out ∧ s1.subpatterns s.currentIndex = some out := by
  rw [generate_regExpAlternative] at h
  obtain ⟨r, hr, h2⟩ := andThen_eq_ok _ _ _ h
  obtain ⟨q, hq, h3⟩ := andThen_eq_ok _ _ _ h2
  have h4 := Except.ok.inj h3
  have ho : q.1 = out := congrArg Prod.fst h4
  have hs : q.2.store s.currentIndex q.1 = s1 := congrArg Prod.snd h4
  have ht : r.2.currentIndex = wrapInt (s.currentIndex + 1) := by
    rw [drawSize_state draws min max _ r hr, drawnBy_currentIndex, claim_currentIndex]
  refine ⟨r.1, r.2, q.2, hr, ht, ?_, ?_, ?_⟩
  · rw [← ho]
    exact hq
  · rw [← hs, ho]
  · rw [← hs, ho]
    exact store_subpatterns_same _ _ _

/-- A branch of an alternative takes no index and stores nothing: its parts run
from a state with the same counter and the same table, and its final state is
the one its parts leave. -/
theorem branch_claims_nothing (draws : Nat → Nat) (min max : Int) (list : List RegExp)
    (s : GenState) (out : List Char) (s1 : GenState)
    (h : generate draws (.regExpList min max list true) s = .ok (out, s1)) :
    ∃ size t, drawSize draws min max s = .ok (size, t) ∧
      t.currentIndex = s.currentIndex ∧ t.subpatterns = s.subpatterns ∧
      repeatGen size.toNat (fun u => generateAll draws list u) [] t = .ok (out, s1) := by
  rw [generate_regExpList_branch] at h
  obtain ⟨r, hr, h2⟩ := andThen_eq_ok _ _ _ h
  obtain ⟨q, hq, h3⟩ := andThen_eq_ok _ _ _ h2
  have h4 := Except.ok.inj h3
  have ht := drawSize_state draws min max s r hr
  refine ⟨r.1, r.2, hr, ?_, ?_, ?_⟩
  · rw [ht, drawnBy_currentIndex]
  · rw [ht, drawnBy_subpatterns]
  · rw [← h4]
    exact hq

/-- A class takes no index and leaves the table as it was. -/
theorem class_keeps_captures (draws : Nat → Nat) (min max : Int) (cs : List Nat)
    (s : GenState) (out : List Char) (s1 : GenState)
    (h : generate draws (.regExpClass min max cs) s = .ok (out, s1)) :
    s1.currentIndex = s.currentIndex ∧ s1.subpatterns = s.subpatterns := by
  rw [generate_regExpClass] at h
  obtain ⟨r, hr, h2⟩ := andThen_eq_ok _ _ _ h
  have ht := drawSize_state draws min max s r hr
  obtain ⟨h3, h4⟩ := repeatGen_keeps (pickCharacter draws cs)
    (fun u a ha => by
      rw [pickCharacter_state draws cs u a ha]
      exact ⟨rfl, rfl⟩) _ _ _ _ h2
  rw [ht] at h3 h4
  exact ⟨h3, h4⟩

/-- A back reference takes no index and leaves the table as it was. -/
theorem backReference_keeps_captures (draws : Nat → Nat) (min max index : Int)
    (s : GenState) (out : List Char) (s1 : GenState)
    (h : generate draws (.regExpBackReference min max index) s = .ok (out, s1)) :
    s1.currentIndex = s.currentIndex ∧ s1.subpatterns = s.subpatterns := by
  cases hsub : s.subpatterns index with
  | none =>
    rw [generate_regExpBackReference_absent draws min max index s hsub] at h
    have h1 : s = s1 := congrArg Prod.snd (Except.ok.inj h)
    rw [← h1]
    exact ⟨rfl, rfl⟩
  | some str =>
    rw [generate_regExpBackReference_found draws min max index s str hsub] at h
    obtain ⟨r, hr, h2⟩ := andThen_eq_ok _ _ _ h
    have ht := drawSize_state draws min max s r hr
    obtain ⟨h3, h4⟩ := repeatGen_keeps (fun t => .ok (str, t))
      (fun u a ha => by
        rw [← Except.ok.inj ha]
        exact ⟨rfl, rfl⟩) _ _ _ _ h2
    rw [ht] at h3 h4
    exact ⟨h3, h4⟩

theorem compile_alternation_capture :
    compile "((a)|b)(c)\\2".toList = .ok (.regExpList 1 1
      [.regExpAlternative 1 1
        [.regExpList 1 1 [.regExpList 1 1 [.regExpClass 1 1 [97]] false] true,
         .regExpList 1 1 [.regExpClass 1 1 [98]] true],
       .regExpList 1 1 [.regExpClass 1 1 [99]] false,
       .regExpBackReference 1 1 2] false) := rfl

theorem compile_nested_capture :
    compile "((a)x|b)\\1\\2".toList = .ok (.regExpList 1 1
      [.regExpAlternative 1 1
        [.regExpList 1 1
          [.regExpList 1 1 [.regExpClass 1 1 [97]] false, .regExpClass 1 1 [120]] true,
         .regExpList 1 1 [.regExpClass 1 1 [98]] true],
       .regExpBackReference 1 1 1,
       .regExpBackReference 1 1 2] false) := rfl

/-- The run of the tree of `((a)|b)(c)\2`: the text, the final counter and the
final table, by the branch drawn. -/
theorem generate_alternation_capture (draws : Nat → Nat) :
    (draws 2 % 2 = 0 → ∃ s, generate draws (.regExpList 1 1
        [.regExpAlternative 1 1
          [.regExpList 1 1 [.regExpList 1 1 [.regExpClass 1 1 [97]] false] true,
           .regExpList 1 1 [.regExpClass 1 1 [98]] true],
         .regExpList 1 1 [.regExpClass 1 1 [99]] false,
         .regExpBackReference 1 1 2] false) GenState.init = .ok ("aca".toList, s) ∧
      s.currentIndex = 4 ∧ s.subpatterns 0 = some "aca".toList ∧
      s.subpatterns 1 = some "a".toList ∧ s.subpatterns 2 = some "a".toList ∧
      s.subpatterns 3 = some "c".toList ∧ s.subpatterns 4 = none) ∧
    (draws 2 % 2 ≠ 0 → ∃ s, generate draws (.regExpList 1 1
        [.regExpAlternative 1 1
          [.regExpList 1 1 [.regExpList 1 1 [.regExpClass 1 1 [97]] false] true,
           .regExpList 1 1 [.regExpClass 1 1 [98]] true],
         .regExpList 1 1 [.regExpClass 1 1 [99]] false,
         .regExpBackReference 1 1 2] false) GenState.init = .ok ("bcc".toList, s) ∧
      s.currentIndex = 3 ∧ s.subpatterns 0 = some "bcc".toList ∧
      s.subpatterns 1 = some "b".toList ∧ s.subpatterns 2 = some "c".toList ∧
      s.subpatterns 3 = none) := by
  have hA1 := generate_list_once draws [literal 'a']
    ((((GenState.init.claim.drawnBy 1).claim.drawnBy 1).drawnBy 1).drawnBy 1) _ ['a']
    (generateAll_literals draws ['a'] _)
  have idxA : ((((GenState.init.claim.drawnBy 1).claim.drawnBy 1).drawnBy 1).drawnBy
      1).currentIndex = 2 := by decide
  rw [idxA] at hA1
  have hb1 := generate_branch_once draws _
    (((GenState.init.claim.drawnBy 1).claim.drawnBy 1).drawnBy 1) _ _
    (generateAll_single_ok draws _ _ _ _ hA1)
  have hb2 := generate_branch_once draws _
    (((GenState.init.claim.drawnBy 1).claim.drawnBy 1).drawnBy 1) _ ['b']
    (generateAll_literals draws ['b'] _)
  have halt := generate_alternative_two draws _ _ (GenState.init.claim.drawnBy 1) _ _ _ _
    hb1 hb2
  have hp : (GenState.init.claim.drawnBy 1).pos + 1 = 2 := rfl
  have hc0 : (GenState.init.claim.drawnBy 1).currentIndex = 1 := by decide
  rw [hp, hc0] at halt
  constructor
  · intro h
    rw [if_pos h] at halt
    refine ⟨_, generate_list_once draws _ _ _ _
      (generateAll_cons_ok draws _ _ _ _ _ _ _ halt
        (generateAll_cons_ok draws _ _ _ _ _ _ _
          (generate_list_once draws [literal 'c'] _ _ ['c'] (generateAll_literals draws ['c'] _))
          (generateAll_single_ok draws _ _ _ _
            (generate_backreference_found draws 2 ['a'] _ ?_)))), ?_, ?_, ?_, ?_, ?_, ?_⟩
    all_goals decide
  · intro h
    rw [if_neg h] at halt
    refine ⟨_, generate_list_once draws _ _ _ _
      (generateAll_cons_ok draws _ _ _ _ _ _ _ halt
        (generateAll_cons_ok draws _ _ _ _ _ _ _
          (generate_list_once draws [literal 'c'] _ _ ['c'] (generateAll_literals draws ['c'] _))
          (generateAll_single_ok draws _ _ _ _
            (generate_backreference_found draws 2 ['c'] _ ?_)))), ?_, ?_, ?_, ?_, ?_⟩
    all_goals decide

/-- The run of the tree of `((a)x|b)\1\2`: index 1 is the alternative, which
starts first, and index 2 the group `(a)` inside it, which finishes first. -/
theorem generate_nested_capture (draws : Nat → Nat) :
    generateString draws (.regExpList 1 1
      [.regExpAlternative 1 1
        [.regExpList 1 1
          [.regExpList 1 1 [.regExpClass 1 1 [97]] false, .regExpClass 1 1 [120]] true,
         .regExpList 1 1 [.regExpClass 1 1 [98]] true],
       .regExpBackReference 1 1 1,
       .regExpBackReference 1 1 2] false) =
      .ok (if draws 2 % 2 = 0 then "axaxa".toList else "bb".toList) := by
  have hA1 := generate_list_once draws [literal 'a']
    ((((GenState.init.claim.drawnBy 1).claim.drawnBy 1).drawnBy 1).drawnBy 1) _ ['a']
    (generateAll_literals draws ['a'] _)
  have idxA : ((((GenState.init.claim.drawnBy 1).claim.drawnBy 1).drawnBy 1).drawnBy
      1).currentIndex = 2 := by decide
  rw [idxA] at hA1
  have hb1 := generate_branch_once draws _
    (((GenState.init.claim.drawnBy 1).claim.drawnBy 1).drawnBy 1) _ _
    (generateAll_cons_ok draws _ _ _ _ _ _ _ hA1
      (generateAll_single_ok draws _ _ _ _ (generate_literal draws 'x' _)))
  have hb2 := generate_branch_once draws _
    (((GenState.init.claim.drawnBy 1).claim.drawnBy 1).drawnBy 1) _ ['b']
    (generateAll_literals draws ['b'] _)
  have halt := generate_alternative_two draws _ _ (GenState.init.claim.drawnBy 1) _ _ _ _
    hb1 hb2
  have hp : (GenState.init.claim.drawnBy 1).pos + 1 = 2 := rfl
  have hc0 : (GenState.init.claim.drawnBy 1).currentIndex = 1 := by decide
  rw [hp, hc0] at halt
  by_cases h : draws 2 % 2 = 0
  · rw [if_pos h] at halt
    rw [if_pos h]
    refine generateString_of_generate _ _ _ _ (generate_list_once draws _ _ _ _
      (generateAll_cons_ok draws _ _ _ _ _ _ _ halt
        (generateAll_cons_ok draws _ _ _ _ _ _ _
          (generate_backreference_found draws 1 ['a', 'x'] _ ?_)
          (generateAll_single_ok draws _ _ _ _
            (generate_backreference_found draws 2 ['a'] _ ?_)))))
    all_goals decide
  · rw [if_neg h] at halt
    rw [if_neg h]
    refine generateString_of_generate _ _ _ _ (generate_list_once draws _ _ _ _
      (generateAll_cons_ok draws _ _ _ _ _ _ _ halt
        (generateAll_cons_ok draws _ _ _ _ _ _ _
          (generate_backreference_found draws 1 ['b'] _ ?_)
          (generateAll_single_ok draws _ _ _ _
            (generate_regExpBackReference_absent draws 1 1 2 _ ?_)))))
    all_goals decide

/-- C15. Capture indices are taken in the order in which the lists that are no
branches and the alternatives start generating.  Such a node takes the value of
`currentIndex` at the moment it starts: its parts are generated from a state
whose counter is already one more, and its text is stored under the value it
took; a branch of an alternative, a class and a back reference take no index.
The root list starts from the counter 0.  For `((a)|b)(c)\2` the outputs are
exactly `aca` and `bcc`: when the branch `(a)` is drawn the table ends as
0 `aca`, 1 `a` (the alternative), 2 `a` (the group `(a)`), 3 `c` (the group
`(c)`), with the counter at 4; when the branch `b` is drawn it ends as 0 `bcc`,
1 `b`, 2 `c` (the group `(c)`), nothing under 3, with the counter at 3.  For
`((a)x|b)\1\2` the outputs are exactly `axaxa` and `bb`: index 1 is the
alternative, which starts first, and index 2 the group `(a)`, which starts
after it and finishes before it. -/
theorem capture_indices_follow_generation :
    (∀ (draws : Nat → Nat) (min max : Int) (list : List RegExp) (s : GenState)
        (out : List Char) (s1 : GenState),
      generate draws (.regExpList min max list false) s = .ok (out, s1) →
      ∃ size t q, drawSize draws min max s.claim = .ok (size, t) ∧
        t.currentIndex = wrapInt (s.currentIndex + 1) ∧
        repeatGen size.toNat (fun u => generateAll draws list u) [] t = .ok (out, q) ∧
        s1 = q.store s.currentIndex out ∧ s1.subpatterns s.currentIndex = some out) ∧
    (∀ (draws : Nat → Nat) (min max : Int) (list : List RegExp) (s : GenState)
        (out : List Char) (s1 : GenState),
      generate draws (.regExpAlternative min max list) s = .ok (out, s1) →
      ∃ size t q, drawSize draws min max s.claim = .ok (size, t) ∧
        t.currentIndex = wrapInt (s.currentIndex + 1) ∧
        repeatGen size.toNat
          (fun u => andThen (intn draws (list.length : Int) u) fun k =>
            generateNth draws list k.1.toNat k.2) [] t = .ok (out, q) ∧
        s1 = q.store s.currentIndex out ∧ s1.subpatterns s.currentIndex = some out) ∧
    (∀ (draws : Nat → Nat) (min max : Int) (list : List RegExp) (s : GenState)
        (out : List Char) (s1 : GenState),
      generate draws (.regExpList min max list true) s = .ok (out, s1) →
      ∃ size t, drawSize draws min max s = .ok (size, t) ∧
        t.currentIndex = s.currentIndex ∧ t.subpatterns = s.subpatterns ∧
        repeatGen size.toNat (fun u => generateAll draws list u) [] t = .ok (out, s1)) ∧
    (∀ (draws : Nat → Nat) (min max : Int) (cs : List Nat) (s : GenState)
        (out : List Char) (s1 : GenState),
      generate draws (.regExpClass min max cs) s = .ok (out, s1) →
      s1.currentIndex = s.currentIndex ∧ s1.subpatterns = s.subpatterns) ∧
    (∀ (draws : Nat → Nat) (min max index : Int) (s : GenState)
        (out : List Char) (s1 : GenState),
      generate draws (.regExpBackReference min max index) s = .ok (out, s1) →
      s1.currentIndex = s.currentIndex ∧ s1.subpatterns = s.subpatterns) ∧
    GenState.init.currentIndex = 0 ∧
    (∃ root, compile "((a)|b)(c)\\2".toList = .ok root ∧
      (∀ draws,
        (generateString draws root = .ok "aca".toList ∧
          ∃ s, generate draws root GenState.init = .ok ("aca".toList, s) ∧
            s.currentIndex = 4 ∧ s.subpatterns 0 = some "aca".toList ∧
            s.subpatterns 1 = some "a".toList ∧ s.subpatterns 2 = some "a".toList ∧
            s.subpatterns 3 = some "c".toList ∧ s.subpatterns 4 = none) ∨
        (generateString draws root = .ok "bcc".toList ∧
          ∃ s, generate draws root GenState.init = .ok ("bcc".toList, s) ∧
            s.currentIndex = 3 ∧ s.subpatterns 0 = some "bcc".toList ∧
            s.subpatterns 1 = some "b".toList ∧ s.subpatterns 2 = some "c".toList ∧
            s.subpatterns 3 = none)) ∧
      (∃ draws, generateString draws root = .ok "aca".toList) ∧
      (∃ draws, generateString draws root = .ok "bcc".toList)) ∧
    (∃ root, compile "((a)x|b)\\1\\2".toList = .ok root ∧
      (∀ draws, generateString draws root = .ok "axaxa".toList ∨
        generateString draws root = .ok "bb".toList) ∧
      (∃ draws, generateString draws root = .ok "axaxa".toList) ∧
      (∃ draws, generateString draws root = .ok "bb".toList)) := by
  refine ⟨list_claims_at_start, alternative_claims_at_start, branch_claims_nothing,
    class_keeps_captures, backReference_keeps_captures, rfl,
    ⟨_, compile_alternation_capture, fun draws => ?_, ⟨fun _ => 0, ?_⟩, ⟨fun _ => 1, ?_⟩⟩,
    ⟨_, compile_nested_capture, fun draws => ?_, ⟨fun _ => 0, ?_⟩, ⟨fun _ => 1, ?_⟩⟩⟩
  · by_cases h : draws 2 % 2 = 0
    · obtain ⟨s, hs, hrest⟩ := (generate_alternation_capture draws).1 h
      exact Or.inl ⟨generateString_of_generate _ _ _ _ hs, s, hs, hrest⟩
    · obtain ⟨s, hs, hrest⟩ := (generate_alternation_capture draws).2 h
      exact Or.inr ⟨generateString_of_generate _ _ _ _ hs, s, hs, hrest⟩
  · obtain ⟨s, hs, -⟩ := (generate_alternation_capture (fun _ => 0)).1 rfl
    exact generateString_of_generate _ _ _ _ hs
  · obtain ⟨s, hs, -⟩ := (generate_alternation_capture (fun _ => 1)).2 (by decide)
    exact generateString_of_generate _ _ _ _ hs
  · rw [generate_nested_capture]
    by_cases h : draws 2 % 2 = 0
    · left; rw [if_pos h]
    · right; rw [if_neg h]
  · rw [generate_nested_capture]; rfl
  · rw [generate_nested_capture]; rfl


/-! ## Invariants of the compiled tree -/

theorem every_regExpList (p : RegExp → Bool) (min max : Int) (list : List RegExp) (a : Bool) :
    (RegExp.regExpList min max list a).every p =
      (p (.regExpList min max list a) && everyAll p list) := by
  rw [RegExp.every]

theorem every_regExpAlternative (p : RegExp → Bool) (min max : Int) (list : List RegExp) :
    (RegExp.regExpAlternative min max list).every p =
      (p (.regExpAlternative min max list) && everyAll p list) := by
  rw [RegExp.every]

theorem every_regExpClass (p : RegExp → Bool) (min max : Int) (cs : List Nat) :
    (RegExp.regExpClass min max cs).every p = p (.regExpClass min max cs) := by
  rw [RegExp.every]

theorem every_regExpBackReference (p : RegExp → Bool) (min max i : Int) :
    (RegExp.regExpBackReference min max i).every p = p (.regExpBackReference min max i) := by
  rw [RegExp.every]

theorem everyAll_nil (p : RegExp → Bool) : everyAll p [] = true := by
  rw [everyAll]

theorem everyAll_cons (p : RegExp → Bool) (re : RegExp) (rest : List RegExp) :
    everyAll p (re :: rest) = (re.every p && everyAll p rest) := by
  rw [everyAll]

theorem everyAll_append (p : RegExp → Bool) (l1 l2 : List RegExp) :
    everyAll p (l1 ++ l2) = (everyAll p l1 && everyAll p l2) := by
  induction l1 with
  | nil => rw [List.nil_append, everyAll_nil, Bool.true_and]
  | cons x xs ih => rw [List.cons_append, everyAll_cons, everyAll_cons, ih, Bool.and_assoc]

theorem everyAll_single (p : RegExp → Bool) (re : RegExp) :
    everyAll p [re] = re.every p := by
  rw [everyAll_cons, everyAll_nil, Bool.and_true]

theorem everyAll_snoc (p : RegExp → Bool) (l : List RegExp) (re : RegExp)
    (h1 : everyAll p l = true) (h2 : re.every p = true) : everyAll p (l ++ [re]) = true := by
  rw [everyAll_append, everyAll_single, h1, h2]
  rfl

mutual
theorem every_mono (p q : RegExp → Bool) (h : ∀ re, p re = true → q re = true) :
    ∀ re : RegExp, re.every p = true → re.every q = true
  | .regExpList min max list a, hp => by
    rw [every_regExpList, Bool.and_eq_true] at hp ⊢
    exact ⟨h _ hp.1, everyAll_mono p q h list hp.2⟩
  | .regExpAlternative min max list, hp => by
    rw [every_regExpAlternative, Bool.and_eq_true] at hp ⊢
    exact ⟨h _ hp.1, everyAll_mono p q h list hp.2⟩
  | .regExpClass min max cs, hp => by
    rw [every_regExpClass] at hp ⊢
    exact h _ hp
  | .regExpBackReference min max i, hp => by
    rw [every_regExpBackReference] at hp ⊢
    exact h _ hp
theorem everyAll_mono (p q : RegExp → Bool) (h : ∀ re, p re = true → q re = true) :
    ∀ l : List RegExp, everyAll p l = true → everyAll q l = true
  | [], _ => everyAll_nil q
  | re :: rest, hp => by
    rw [everyAll_cons, Bool.and_eq_true] at hp ⊢
    exact ⟨every_mono p q h re hp.1, everyAll_mono p q h rest hp.2⟩
end

theorem every_setMinMaxNumber (re : RegExp) (min max : Int) (h : re.every nodeOk = true)
    (hb : min ≤ max) : (re.setMinMaxNumber min max).every nodeOk = true := by
  cases re with
  | regExpList mn mx l a =>
    rw [RegExp.setMinMaxNumber, every_regExpList, Bool.and_eq_true] at *
    exact ⟨by simp [nodeOk, boundOk, alternativeOk, hb], h.2⟩
  | regExpAlternative mn mx l =>
    rw [RegExp.setMinMaxNumber, every_regExpAlternative, Bool.and_eq_true] at *
    refine ⟨?_, h.2⟩
    have h1 := h.1
    simp only [nodeOk, boundOk, alternativeOk, Bool.and_eq_true, decide_eq_true_eq] at h1 ⊢
    exact ⟨hb, h1.2⟩
  | regExpClass mn mx cs =>
    rw [RegExp.setMinMaxNumber, every_regExpClass]
    simp [nodeOk, boundOk, alternativeOk, hb]
  | regExpBackReference mn mx i =>
    rw [RegExp.setMinMaxNumber, every_regExpBackReference]
    simp [nodeOk, boundOk, alternativeOk, hb]

theorem setLastMinMax_sound (min max : Int) (list list1 : List RegExp)
    (h : setLastMinMax min max list = .ok list1) (hl : everyAll nodeOk list = true)
    (hb : min ≤ max) : everyAll nodeOk list1 = true := by
  rcases List.eq_nil_or_concat list with rfl | ⟨init, last, rfl⟩
  · rw [setLastMinMax_nil] at h
    exact Except.noConfusion h
  · rw [List.concat_eq_append] at h hl
    rw [setLastMinMax_append] at h
    have := Except.ok.inj h
    subst this
    rw [everyAll_append, Bool.and_eq_true, everyAll_single] at hl
    exact everyAll_snoc _ _ _ hl.1 (every_setMinMaxNumber last min max hl.2 hb)

theorem quantifierBound_le (m0 m1 : Int) (index : Nat) (min max : Int)
    (h : quantifierBound m0 m1 index = .ok (min, max)) : min ≤ max := by
  simp only [quantifierBound] at h
  generalize (if index = 0 then m0
    else if m1 = 0 then wrapInt (m0 + maxCharactersInStarOrPlus) else m1) = m at h
  by_cases hgt : m0 > m
  · rw [if_pos hgt] at h
    exact Except.noConfusion h
  · rw [if_neg hgt] at h
    have := Except.ok.inj h
    simp only [Prod.mk.injEq] at this
    rw [← this.1, ← this.2]
    exact not_lt.mp hgt

theorem every_class (min max : Int) (cs : List Nat) (h : min ≤ max) :
    (RegExp.regExpClass min max cs).every nodeOk = true := by
  rw [every_regExpClass]
  simp [nodeOk, boundOk, alternativeOk, h]

theorem every_backReference (min max i : Int) (h : min ≤ max) :
    (RegExp.regExpBackReference min max i).every nodeOk = true := by
  rw [every_regExpBackReference]
  simp [nodeOk, boundOk, alternativeOk, h]

theorem every_freeze (rel : Rel) (h : everyAll nodeOk rel.list = true) :
    rel.freeze.every nodeOk = true := by
  rw [Rel.freeze, every_regExpList, h]
  simp [nodeOk, boundOk, alternativeOk]

theorem every_alternative (branches : List RegExp) (rel : Rel)
    (hrel : everyAll nodeOk rel.list = true) (hp : rel.parentAlternative = some branches)
    (hne : branches ≠ []) (hb : everyAll nodeOk branches = true)
    (hall : branches.all isBranch = true) :
    (RegExp.regExpAlternative 1 1 (branches ++ [rel.freeze])).every nodeOk = true := by
  have hlen : 1 ≤ branches.length := List.length_pos.mpr hne
  have hfb : isBranch rel.freeze = true := by
    simp [Rel.freeze, isBranch, Rel.isItAPartOfAlternative, hp]
  rw [every_regExpAlternative, everyAll_snoc _ _ _ hb (every_freeze rel hrel), Bool.and_true]
  simp only [nodeOk, boundOk, alternativeOk, Bool.and_eq_true, decide_eq_true_eq,
    List.length_append, List.length_singleton, List.all_append, List.all_cons, List.all_nil,
    Bool.and_true]
  exact ⟨le_refl 1, by omega, hall, hfb⟩

theorem sound_new : Rel.sound Rel.new :=
  ⟨everyAll_nil _, fun _ h => Option.noConfusion h⟩

theorem sound_with_list (rel : Rel) (list : List RegExp) (h : rel.sound)
    (hl : everyAll nodeOk list = true) : Rel.sound { rel with list := list } :=
  ⟨hl, h.2⟩

theorem sound_append (rel : Rel) (re : RegExp) (h : rel.sound)
    (hre : re.every nodeOk = true) : Rel.sound { rel with list := rel.list ++ [re] } :=
  sound_with_list rel _ h (everyAll_snoc _ _ _ h.1 hre)

theorem every_closed (rel : Rel) (h : rel.sound) :
    (match rel.parentAlternative with
      | some branches => RegExp.regExpAlternative 1 1 (branches ++ [rel.freeze])
      | none => rel.freeze).every nodeOk = true := by
  cases hp : rel.parentAlternative with
  | none => exact every_freeze rel h.1
  | some branches =>
    obtain ⟨hne, hb, hall⟩ := h.2 branches hp
    exact every_alternative branches rel h.1 hp hne hb hall

theorem sound_bar (rel : Rel) (h : rel.sound) (bs : List RegExp)
    (hbs : bs = match rel.parentAlternative with
      | some branches => branches
      | none => []) :
    Rel.sound
      { list := []
        parentAlternative := some (bs ++ [Rel.freeze { rel with parentAlternative := some bs }]) } := by
  refine ⟨everyAll_nil _, fun bs1 hbs1 => ?_⟩
  have hbs2 := Option.some.inj hbs1
  subst hbs2
  have hfr : (Rel.freeze { rel with parentAlternative := some bs }).every nodeOk = true :=
    every_freeze { rel with parentAlternative := some bs } h.1
  have hbr : isBranch (Rel.freeze { rel with parentAlternative := some bs }) = true := rfl
  have hold : everyAll nodeOk bs = true ∧ bs.all isBranch = true := by
    cases hp : rel.parentAlternative with
    | none =>
      rw [hp] at hbs
      subst hbs
      exact ⟨everyAll_nil _, rfl⟩
    | some branches =>
      rw [hp] at hbs
      subst hbs
      exact ⟨(h.2 _ hp).2.1, (h.2 _ hp).2.2⟩
  refine ⟨by simp, everyAll_snoc _ _ _ hold.1 hfr, ?_⟩
  rw [List.all_append, List.all_cons, List.all_nil, hbr, Bool.and_true, Bool.and_true]
  exact hold.2

theorem ok_step_inj {skip skip1 : Nat} {rel rel1 : Rel} {stack stack1 : List Rel}
    (h : (Except.ok (skip, rel, stack) : Except CompileError (Nat × Rel × List Rel)) =
      .ok (skip1, rel1, stack1)) : rel = rel1 ∧ stack = stack1 := by
  have := Except.ok.inj h
  simp only [Prod.mk.injEq] at this
  exact ⟨this.2.1, this.2.2⟩

theorem setLast_step_sound (min max : Int) (k : Nat) (rel : Rel) (stack : List Rel)
    (skip : Nat) (rel1 : Rel) (stack1 : List Rel)
    (h : (match setLastMinMax min max rel.list with
      | .error e => .error e
      | .ok list => .ok (k, { rel with list := list }, stack) :
        Except CompileError (Nat × Rel × List Rel)) = .ok (skip, rel1, stack1))
    (hb : min ≤ max) (hrel : rel.sound) (hst : ∀ r ∈ stack, Rel.sound r) :
    rel1.sound ∧ ∀ r ∈ stack1, Rel.sound r := by
  cases hs : setLastMinMax min max rel.list with
  | error e =>
    rw [hs] at h
    exact Except.noConfusion h
  | ok list =>
    rw [hs] at h
    obtain ⟨rfl, rfl⟩ := ok_step_inj h
    exact ⟨sound_with_list rel list hrel (setLastMinMax_sound min max rel.list list hs hrel.1 hb),
      hst⟩

theorem compileStep_sound (c : Char) (rest : List Char) (rel : Rel) (stack : List Rel)
    (skip : Nat) (rel1 : Rel) (stack1 : List Rel)
    (h : compileStep c rest rel stack = .ok (skip, rel1, stack1))
    (hrel : rel.sound) (hst : ∀ r ∈ stack, Rel.sound r) :
    rel1.sound ∧ ∀ r ∈ stack1, Rel.sound r := by
  unfold compileStep at h
  by_cases h1 : c = '('
  · rw [if_pos h1] at h
    obtain ⟨rfl, rfl⟩ := ok_step_inj h
    refine ⟨sound_new, fun r hr => ?_⟩
    rcases List.mem_cons.mp hr with rfl | hr
    · exact hrel
    · exact hst r hr
  rw [if_neg h1] at h
  by_cases h2 : c = ')'
  · rw [if_pos h2] at h
    cases stack with
    | nil => exact Except.noConfusion h
    | cons top stack2 =>
      have htop := hst top (List.mem_cons_self _ _)
      have hrest : ∀ r ∈ stack2, Rel.sound r := fun r hr => hst r (List.mem_cons_of_mem _ hr)
      have hnode := every_closed rel hrel
      cases hp : rel.parentAlternative with
      | none =>
        rw [hp] at hnode
        simp only [hp] at h
        obtain ⟨rfl, rfl⟩ := ok_step_inj h
        exact ⟨sound_append top _ htop hnode, hrest⟩
      | some branches =>
        rw [hp] at hnode
        simp only [hp] at h
        obtain ⟨rfl, rfl⟩ := ok_step_inj h
        exact ⟨sound_append top _ htop hnode, hrest⟩
  rw [if_neg h2] at h
  by_cases h3 : c = '|'
  · rw [if_pos h3] at h
    obtain ⟨rfl, rfl⟩ := ok_step_inj h
    exact ⟨sound_bar rel hrel _ rfl, hst⟩
  rw [if_neg h3] at h
  by_cases h4 : c = '['
  · rw [if_pos h4] at h
    cases rest with
    | nil => exact Except.noConfusion h
    | cons c1 rest1 =>
      simp only at h
      generalize classBody (if decide (c1 = '^') = true then rest1 else c1 :: rest1) 0 [] 0 = cb at h
      obtain ⟨chars, n, b⟩ := cb
      cases b with
      | false => exact Except.noConfusion h
      | true =>
        simp only at h
        by_cases hlen : chars.length = 0
        · rw [if_pos hlen] at h
          exact Except.noConfusion h
        · rw [if_neg hlen] at h
          obtain ⟨rfl, rfl⟩ := ok_step_inj h
          exact ⟨sound_append rel _ hrel (every_class 1 1 _ (le_refl 1)), hst⟩
  rw [if_neg h4] at h
  by_cases h5 : c = '{'
  · rw [if_pos h5] at h
    generalize quantifierBody rest 0 0 0 0 = q at h
    cases q with
    | error e => exact Except.noConfusion h
    | ok v =>
      obtain ⟨m0, m1, index, n⟩ := v
      simp only at h
      generalize hqb : quantifierBound m0 m1 index = qb at h
      cases qb with
      | error e => exact Except.noConfusion h
      | ok w =>
        obtain ⟨min, max⟩ := w
        simp only at h
        exact setLast_step_sound min max (n + 1) rel stack skip rel1 stack1 h
          (quantifierBound_le m0 m1 index min max hqb) hrel hst
  rw [if_neg h5] at h
  by_cases h6 : c = '?'
  · rw [if_pos h6] at h
    exact setLast_step_sound 0 1 0 rel stack skip rel1 stack1 h (by decide) hrel hst
  rw [if_neg h6] at h
  by_cases h7 : c = '*'
  · rw [if_pos h7] at h
    exact setLast_step_sound 0 maxCharactersInStarOrPlus 0 rel stack skip rel1 stack1 h
      (by decide) hrel hst
  rw [if_neg h7] at h
  by_cases h8 : c = '+'
  · rw [if_pos h8] at h
    exact setLast_step_sound 1 maxCharactersInStarOrPlus 0 rel stack skip rel1 stack1 h
      (by decide) hrel hst
  rw [if_neg h8] at h
  by_cases h9 : c = '.'
  · rw [if_pos h9] at h
    obtain ⟨rfl, rfl⟩ := ok_step_inj h
    exact ⟨sound_append rel _ hrel (every_class 1 1 _ (le_refl 1)), hst⟩
  rw [if_neg h9] at h
  by_cases h10 : c = '\\'
  · rw [if_pos h10] at h
    cases rest with
    | nil => exact Except.noConfusion h
    | cons c1 rest1 =>
      simp only at h
      cases ha : atoiRune c1 with
      | none =>
        simp only [ha] at h
        obtain ⟨rfl, rfl⟩ := ok_step_inj h
        exact ⟨sound_append rel _ hrel (every_class 1 1 _ (le_refl 1)), hst⟩
      | some digit =>
        simp only [ha] at h
        obtain ⟨rfl, rfl⟩ := ok_step_inj h
        exact ⟨sound_append rel _ hrel (every_backReference 1 1 _ (le_refl 1)), hst⟩
  rw [if_neg h10] at h
  obtain ⟨rfl, rfl⟩ := ok_step_inj h
  exact ⟨sound_append rel _ hrel (every_class 1 1 _ (le_refl 1)), hst⟩

theorem compileLoop_sound : ∀ (r : List Char) (skip : Nat) (rel : Rel) (stack : List Rel)
    (rel1 : Rel) (stack1 : List Rel),
    compileLoop r skip rel stack = .ok (rel1, stack1) →
    rel.sound → (∀ x ∈ stack, Rel.sound x) →
    rel1.sound ∧ ∀ x ∈ stack1, Rel.sound x
  | [], skip, rel, stack, rel1, stack1, h, hrel, hst => by
    rw [compileLoop_nil] at h
    have := Except.ok.inj h
    simp only [Prod.mk.injEq] at this
    obtain ⟨rfl, rfl⟩ := this
    exact ⟨hrel, hst⟩
  | _ :: rest, skip + 1, rel, stack, rel1, stack1, h, hrel, hst => by
    rw [compileLoop] at h
    exact compileLoop_sound rest skip rel stack rel1 stack1 h hrel hst
  | c :: rest, 0, rel, stack, rel1, stack1, h, hrel, hst => by
    rw [compileLoop] at h
    cases hs : compileStep c rest rel stack with
    | error e =>
      rw [hs] at h
      exact Except.noConfusion h
    | ok v =>
      obtain ⟨skip2, rel2, stack2⟩ := v
      rw [hs] at h
      obtain ⟨h1, h2⟩ := compileStep_sound c rest rel stack skip2 rel2 stack2 hs hrel hst
      exact compileLoop_sound rest skip2 rel2 stack2 rel1 stack1 h h1 h2

theorem finish_sound (rel : Rel) (stack : List Rel) (root : RegExp)
    (h : finish rel stack = .ok root) (hrel : rel.sound) : root.every nodeOk = true := by
  simp only [finish] at h
  by_cases hl : stack.length > 0
  · rw [if_pos hl] at h
    exact Except.noConfusion h
  · rw [if_neg hl] at h
    have hroot := Except.ok.inj h
    subst hroot
    have hnode := every_closed rel hrel
    cases hp : rel.parentAlternative with
    | none => exact every_freeze _ hrel.1
    | some branches =>
      rw [hp] at hnode
      exact every_freeze _ (by exact (everyAll_single _ _).trans hnode)

theorem compile_sound (r : List Char) (root : RegExp) (h : compile r = .ok root) :
    root.every nodeOk = true := by
  rw [compile] at h
  cases hs : compileLoop r 0 Rel.new [] with
  | error e =>
    rw [hs] at h
    exact Except.noConfusion h
  | ok v =>
    obtain ⟨rel, stack⟩ := v
    rw [hs] at h
    exact finish_sound rel stack root h
      (compileLoop_sound r 0 Rel.new [] rel stack hs sound_new
        (fun _ hx => absurd hx (List.not_mem_nil _))).1

theorem nodeOk_boundOk (re : RegExp) (h : nodeOk re = true) : boundOk re = true := by
  rw [nodeOk, Bool.and_eq_true] at h
  exact h.1

theorem nodeOk_alternativeOk (re : RegExp) (h : nodeOk re = true) : alternativeOk re = true := by
  rw [nodeOk, Bool.and_eq_true] at h
  exact h.2

set_option maxRecDepth 100000 in
theorem compile_quantified_sample :
    compile "(a|b)+c?{2,}\\1{3}".toList =
      .ok (.regExpList 1 1
        [.regExpAlternative 1 10
          [.regExpList 1 1 [.regExpClass 1 1 [97]] true,
           .regExpList 1 1 [.regExpClass 1 1 [98]] true],
         .regExpClass 2 12 [99],
         .regExpBackReference 3 3 1] false) := rfl

set_option maxRecDepth 100000 in
theorem compile_nested_alternation :
    compile "a|(b|c)".toList =
      .ok (.regExpList 1 1
        [.regExpAlternative 1 1
          [.regExpList 1 1 [.regExpClass 1 1 [97]] true,
           .regExpList 1 1
             [.regExpAlternative 1 1
               [.regExpList 1 1 [.regExpClass 1 1 [98]] true,
                .regExpList 1 1 [.regExpClass 1 1 [99]] true]] true]] false) := rfl

/-- C18. Every node of the tree of a pattern that compiles, whether a list, an
alternative, a class or a back reference, has `minNumber ≤ maxNumber`, whatever
quantifiers the pattern applies. -/
theorem compiled_bounds_ordered (r : List Char) (root : RegExp)
    (h : compile r = .ok root) : root.every boundOk = true :=
  every_mono nodeOk boundOk nodeOk_boundOk root (compile_sound r root h)

theorem compiled_bounds_ordered_witness :
    compile "(a|b)+c?{2,}\\1{3}".toList =
      .ok (.regExpList 1 1
        [.regExpAlternative 1 10
          [.regExpList 1 1 [.regExpClass 1 1 [97]] true,
           .regExpList 1 1 [.regExpClass 1 1 [98]] true],
         .regExpClass 2 12 [99],
         .regExpBackReference 3 3 1] false) ∧
    (RegExp.regExpList 1 1
        [.regExpAlternative 1 10
          [.regExpList 1 1 [.regExpClass 1 1 [97]] true,
           .regExpList 1 1 [.regExpClass 1 1 [98]] true],
         .regExpClass 2 12 [99],
         .regExpBackReference 3 3 1] false).every boundOk = true :=
  ⟨compile_quantified_sample,
    compiled_bounds_ordered "(a|b)+c?{2,}\\1{3}".toList _ compile_quantified_sample⟩

/-- C19. Every alternative in the tree of a pattern that compiles has at least
two branches, and each branch is a list marked as a part of an alternative;
this covers the alternatives closed by a parenthesis and the one folded at the
end of the pattern. -/
theorem compiled_alternatives_have_branches (r : List Char) (root : RegExp)
    (h : compile r = .ok root) : root.every alternativeOk = true :=
  every_mono nodeOk alternativeOk nodeOk_alternativeOk root (compile_sound r root h)

theorem compiled_alternatives_have_branches_witness :
    compile "a|(b|c)".toList =
      .ok (.regExpList 1 1
        [.regExpAlternative 1 1
          [.regExpList 1 1 [.regExpClass 1 1 [97]] true,
           .regExpList 1 1
             [.regExpAlternative 1 1
               [.regExpList 1 1 [.regExpClass 1 1 [98]] true,
                .regExpList 1 1 [.regExpClass 1 1 [99]] true]] true]] false) ∧
    (RegExp.regExpList 1 1
        [.regExpAlternative 1 1
          [.regExpList 1 1 [.regExpClass 1 1 [97]] true,
           .regExpList 1 1
             [.regExpAlternative 1 1
               [.regExpList 1 1 [.regExpClass 1 1 [98]] true,
                .regExpList 1 1 [.regExpClass 1 1 [99]] true]] true]] false).every
      alternativeOk = true :=
  ⟨compile_nested_alternation,
    compiled_alternatives_have_branches "a|(b|c)".toList _ compile_nested_alternation⟩


/-! ## Inversion as set subtraction -/

theorem invertChars_exact : ∀ (alphabet chars : List Nat),
    alphabet.Pairwise (fun a b => a < b) → chars.Pairwise (fun a b => a < b) →
    (∀ x ∈ chars, x ∈ alphabet) →
    invertChars alphabet chars = alphabet.filter (fun a => decide (a ∉ chars)) ∧
      (invertChars alphabet chars).length + chars.length = alphabet.length
  | [], chars, _, _, hsub => by
    have hc : chars = [] := by
      cases chars with
      | nil => rfl
      | cons c cs => exact absurd (hsub c (List.mem_cons_self _ _)) (List.not_mem_nil _)
    subst hc
    rw [invertChars]
    exact ⟨rfl, rfl⟩
  | a :: alphabet, [], ha, hc, _ => by
    obtain ⟨h1, h2⟩ := invertChars_exact alphabet [] (List.pairwise_cons.mp ha).2 hc
      (fun x hx => absurd hx (List.not_mem_nil _))
    rw [invertChars, h1]
    refine ⟨by simp, ?_⟩
    rw [h1] at h2
    simp only [List.length_cons, List.length_nil] at h2 ⊢
    omega
  | a :: alphabet, c :: chars, ha, hc, hsub => by
    obtain ⟨ha1, ha2⟩ := List.pairwise_cons.mp ha
    obtain ⟨hc1, hc2⟩ := List.pairwise_cons.mp hc
    rw [invertChars]
    by_cases hge : a ≥ c
    · rw [if_pos hge]
      have hca : c = a := by
        rcases List.mem_cons.mp (hsub c (List.mem_cons_self _ _)) with h | h
        · exact h
        · have := ha1 c h
          omega
      subst hca
      have hsub1 : ∀ x ∈ chars, x ∈ alphabet := by
        intro x hx
        rcases List.mem_cons.mp (hsub x (List.mem_cons_of_mem _ hx)) with h | h
        · have := hc1 x hx
          omega
        · exact h
      obtain ⟨h1, h2⟩ := invertChars_exact alphabet chars ha2 hc2 hsub1
      refine ⟨?_, ?_⟩
      · rw [h1, List.filter_cons_of_neg (by simp)]
        apply List.filter_congr
        intro x hx
        have := ha1 x hx
        have hne : x ≠ c := by omega
        simp [hne]
      · simp only [List.length_cons] at h2 ⊢
        omega
    · rw [if_neg hge]
      have hlt : a < c := by omega
      have hsub1 : ∀ x ∈ c :: chars, x ∈ alphabet := by
        intro x hx
        have hcx : c ≤ x := by
          rcases List.mem_cons.mp hx with h | h
          · exact le_of_eq h.symm
          · exact le_of_lt (hc1 x h)
        rcases List.mem_cons.mp (hsub x hx) with h | h
        · omega
        · exact h
      obtain ⟨h1, h2⟩ := invertChars_exact alphabet (c :: chars) ha2 hc hsub1
      have hnot : a ∉ c :: chars := by
        intro hmem
        rcases List.mem_cons.mp hmem with h | h
        · omega
        · have := hc1 a h
          omega
      refine ⟨?_, ?_⟩
      · rw [h1, List.filter_cons_of_pos (by simpa using hnot)]
      · simp only [List.length_cons] at h2 ⊢
        omega

theorem sortRunes_strict (l : List Nat) (h : l.Nodup) :
    (sortRunes l).Pairwise (fun a b => a < b) := by
  have hperm : (sortRunes l).Perm l := List.perm_insertionSort _ l
  have hnd : (sortRunes l).Nodup := hperm.nodup_iff.mpr h
  have hs := sortRunes_sorted l
  exact (hs.and hnd).imp (fun h => lt_of_le_of_ne h.1 h.2)

theorem inverted_exact (chars : List Nat) (hnd : chars.Nodup)
    (hmem : ∀ x ∈ chars, x ∈ possibleCharactersRunes) :
    invertChars possibleCharactersRunes (sortRunes chars) =
        possibleCharactersRunes.filter (fun a => decide (a ∉ chars)) ∧
      (invertChars possibleCharactersRunes (sortRunes chars)).length + chars.length =
        possibleCharactersRunes.length := by
  obtain ⟨h1, h2⟩ := invertChars_exact possibleCharactersRunes (sortRunes chars)
    possibleCharactersRunes_ascending (sortRunes_strict chars hnd)
    (fun x hx => hmem x ((mem_sortRunes chars x).mp hx))
  refine ⟨?_, ?_⟩
  · rw [h1]
    apply List.filter_congr
    intro x _
    simp only [mem_sortRunes]
  · have hlen : (sortRunes chars).length = chars.length := List.length_insertionSort _ chars
    rw [← hlen]
    exact h2

/-- C20. When the characters that the body of an inverted class lists, singly
or through ranges, are pairwise distinct and all belong to the reference
alphabet, the class compiles to exactly the characters of the alphabet that
the body does not list, in ascending order, and their number is the size of the
alphabet (93) less the number of listed characters. -/
theorem inversion_is_set_subtraction (body : List Char) (hb : ']' ∉ body)
    (hne : explicitCharacters body 0 ≠ [])
    (hnd : (explicitCharacters body 0).Nodup)
    (hmem : ∀ x ∈ explicitCharacters body 0, x ∈ possibleCharactersRunes) :
    ∃ cs, compile ('[' :: '^' :: body ++ [']']) =
        .ok (.regExpList 1 1 [.regExpClass 1 1 cs] false) ∧
      cs = possibleCharactersRunes.filter (fun a => decide (a ∉ explicitCharacters body 0)) ∧
      cs.Pairwise (fun a b => a < b) ∧
      possibleCharactersRunes.length = 93 ∧
      cs.length = 93 - (explicitCharacters body 0).length := by
  obtain ⟨h1, h2⟩ := inverted_exact (explicitCharacters body 0) hnd hmem
  have h93 : possibleCharactersRunes.length = 93 := by decide
  refine ⟨_, compile_inverted_class body hb hne, h1, ?_, h93, ?_⟩
  · rw [h1]
    exact possibleCharactersRunes_ascending.filter _
  · omega

theorem inversion_is_set_subtraction_witness :
    ']' ∉ "a-cx".toList ∧ explicitCharacters "a-cx".toList 0 ≠ [] ∧
    (explicitCharacters "a-cx".toList 0).Nodup ∧
    (∀ x ∈ explicitCharacters "a-cx".toList 0, x ∈ possibleCharactersRunes) ∧
    ∃ cs, compile "[^a-cx]".toList =
        .ok (.regExpList 1 1 [.regExpClass 1 1 cs] false) ∧
      cs = possibleCharactersRunes.filter
        (fun a => decide (a ∉ explicitCharacters "a-cx".toList 0)) ∧
      cs.Pairwise (fun a b => a < b) ∧
      possibleCharactersRunes.length = 93 ∧
      cs.length = 93 - (explicitCharacters "a-cx".toList 0).length :=
  ⟨by decide, by decide, by decide, by decide,
    inversion_is_set_subtraction "a-cx".toList (by decide) (by decide) (by decide) (by decide)⟩


end Generator
